import Mathlib

/-!
# xgbgen: the XML protocol description and its type resolution (`xgbgen/xml.go`)

A shallow embedding of `xml.go`: the document tree (`XML`, `Import`, the
declaration records), the enum value pass `Enums.Eval`, the queries
`XML.IsResource`, `XML.HasType`, `Type.TypeDef`, `Type.Union`, `Type.Size`,
the binding pass `Imports.Eval` and the emission sequence `XML.Morph`.

Conventions of the embedding.

* Go's `type Type string` and `type Name string` are `Typ` and `Name`, both `String`.
* A Go pointer that may be nil (`Import.xml`, `EnumItem.Expr`, `Request.Reply`) is an
  `Option`; a slice of pointers produced by the XML decoder is a `List` of values.
* `Fields` and `Expression` are declared outside `xml.go`; the records take them as the
  type parameters `F` and `E`.
* A query that can dereference a nil `Import.xml`, or reach `log.Panicf`, returns
  `Except Failure _`; the unbounded recursion of `Type.Union` and `Type.Size` is driven
  by a fuel argument, `none` meaning that the fuel ran out before the call returned.
* `encoding/xml` bookkeeping fields (`XMLName`) are not represented.
* What `xml.go` calls but does not declare is a parameter: the size table
  `BaseTypeSizes`, the expression operations, the file decoder of `Imports.Eval`, and
  `Putln` and the `Morph` methods of the list types in `XML.Morph`.
-/

namespace Xgbgen

/-- Go `type Type string`. -/
abbrev Typ := String

/-- Go `type Name string`. -/
abbrev Name := String

/-- Go `type EnumItem struct`: `Expr` is a pointer, nil when the item has no expression. -/
structure EnumItem (E : Type) where
  Name : Name
  Expr : Option E
deriving DecidableEq, Repr

/-- Go `type Enum struct`. -/
structure Enum (E : Type) where
  Name : Typ
  Items : List (EnumItem E)
deriving DecidableEq, Repr

/-- Go `type Xid struct` (used for both `xidtype` and `xidunion` elements). -/
structure Xid where
  Name : Typ
deriving DecidableEq, Repr

/-- Go `type TypeDef struct`. -/
structure TypeDef where
  Old : Typ
  New : Typ
deriving DecidableEq, Repr

/-- Go `type EventCopy struct`. -/
structure EventCopy where
  Name : Typ
  Number : Int
  Ref : Typ
deriving DecidableEq, Repr

/-- Go `type ErrorCopy struct`. -/
structure ErrorCopy where
  Name : Typ
  Number : Int
  Ref : Typ
deriving DecidableEq, Repr

/-- Go `type Struct struct`. -/
structure Struct (F : Type) where
  Name : Typ
  Fields : F
deriving DecidableEq, Repr

/-- Go `type Union struct`. -/
structure Union (F : Type) where
  Name : Typ
  Fields : F
deriving DecidableEq, Repr

/-- Go `type Reply struct`. -/
structure Reply (F : Type) where
  Fields : F
deriving DecidableEq, Repr

/-- Go `type Request struct`. -/
structure Request (F : Type) where
  Name : Typ
  Opcode : Int
  Combine : Bool
  Fields : F
  Reply : Option (Reply F)
deriving DecidableEq, Repr

/-- Go `type Event struct`. -/
structure Event (F : Type) where
  Name : Typ
  Number : Int
  NoSequence : Bool
  Fields : F
deriving DecidableEq, Repr

/-- Go `type Error struct`. -/
structure Error (F : Type) where
  Name : Typ
  Number : Int
  Fields : F
deriving DecidableEq, Repr

mutual
/-- Go `type XML struct`: one protocol description, fields in the order of the source. -/
inductive XML (F E : Type) where
  | mk (Header ExtensionXName ExtensionName MajorVersion MinorVersion : String)
       (Imports : List (Import F E))
       (Enums : List (Enum E))
       (Xids : List Xid)
       (XidUnions : List Xid)
       (TypeDefs : List TypeDef)
       (EventCopies : List EventCopy)
       (ErrorCopies : List ErrorCopy)
       (Structs : List (Struct F))
       (Unions : List (Union F))
       (Requests : List (Request F))
       (Events : List (Event F))
       (Errors : List (Error F))
/-- Go `type Import struct`: `xml` is nil until `Imports.Eval` binds it. -/
inductive Import (F E : Type) where
  | mk (Name : String) (xml : Option (XML F E))
end

variable {F E : Type}

/-- Field `Header` of `XML`. -/
def XML.Header : XML F E → String
  | .mk v _ _ _ _ _ _ _ _ _ _ _ _ _ _ _ _ => v

/-- Field `ExtensionXName` of `XML`. -/
def XML.ExtensionXName : XML F E → String
  | .mk _ v _ _ _ _ _ _ _ _ _ _ _ _ _ _ _ => v

/-- Field `ExtensionName` of `XML`. -/
def XML.ExtensionName : XML F E → String
  | .mk _ _ v _ _ _ _ _ _ _ _ _ _ _ _ _ _ => v

/-- Field `MajorVersion` of `XML`. -/
def XML.MajorVersion : XML F E → String
  | .mk _ _ _ v _ _ _ _ _ _ _ _ _ _ _ _ _ => v

/-- Field `MinorVersion` of `XML`. -/
def XML.MinorVersion : XML F E → String
  | .mk _ _ _ _ v _ _ _ _ _ _ _ _ _ _ _ _ => v

/-- Field `Imports` of `XML`. -/
def XML.Imports : XML F E → List (Import F E)
  | .mk _ _ _ _ _ v _ _ _ _ _ _ _ _ _ _ _ => v

/-- Field `Enums` of `XML`. -/
def XML.Enums : XML F E → List (Enum E)
  | .mk _ _ _ _ _ _ v _ _ _ _ _ _ _ _ _ _ => v

/-- Field `Xids` of `XML`. -/
def XML.Xids : XML F E → List Xid
  | .mk _ _ _ _ _ _ _ v _ _ _ _ _ _ _ _ _ => v

/-- Field `XidUnions` of `XML`. -/
def XML.XidUnions : XML F E → List Xid
  | .mk _ _ _ _ _ _ _ _ v _ _ _ _ _ _ _ _ => v

/-- Field `TypeDefs` of `XML`. -/
def XML.TypeDefs : XML F E → List TypeDef
  | .mk _ _ _ _ _ _ _ _ _ v _ _ _ _ _ _ _ => v

/-- Field `EventCopies` of `XML`. -/
def XML.EventCopies : XML F E → List EventCopy
  | .mk _ _ _ _ _ _ _ _ _ _ v _ _ _ _ _ _ => v

/-- Field `ErrorCopies` of `XML`. -/
def XML.ErrorCopies : XML F E → List ErrorCopy
  | .mk _ _ _ _ _ _ _ _ _ _ _ v _ _ _ _ _ => v

/-- Field `Structs` of `XML`. -/
def XML.Structs : XML F E → List (Struct F)
  | .mk _ _ _ _ _ _ _ _ _ _ _ _ v _ _ _ _ => v

/-- Field `Unions` of `XML`. -/
def XML.Unions : XML F E → List (Union F)
  | .mk _ _ _ _ _ _ _ _ _ _ _ _ _ v _ _ _ => v

/-- Field `Requests` of `XML`. -/
def XML.Requests : XML F E → List (Request F)
  | .mk _ _ _ _ _ _ _ _ _ _ _ _ _ _ v _ _ => v

/-- Field `Events` of `XML`. -/
def XML.Events : XML F E → List (Event F)
  | .mk _ _ _ _ _ _ _ _ _ _ _ _ _ _ _ v _ => v

/-- Field `Errors` of `XML`. -/
def XML.Errors : XML F E → List (Error F)
  | .mk _ _ _ _ _ _ _ _ _ _ _ _ _ _ _ _ v => v

/-- Field `Name` of `Import`. -/
def Import.Name : Import F E → String
  | .mk n _ => n

/-- Field `xml` of `Import`. -/
def Import.xml : Import F E → Option (XML F E)
  | .mk _ x => x

/-! ## `Enums.Eval` -/

/-- The inner loop of `Enums.Eval` over `enum.Items`, `nextValue` being the loop variable.
`Eval` is `(*Expression).Eval` and `newValueExpression` the constructor of the same name,
both declared outside `xml.go`; `bits` is the width of Go's `uint`, so that `nextValue++`
and `item.Expr.Eval() + 1` wrap modulo `2 ^ bits`. -/
def Enums.evalItems (bits : Nat) (Eval : E → Nat) (newValueExpression : Nat → E)
    (nextValue : Nat) : List (EnumItem E) → List (EnumItem E)
  | [] => []
  | item :: rest =>
    match item.Expr with
    | none =>
      { item with Expr := some (newValueExpression nextValue) } ::
        Enums.evalItems bits Eval newValueExpression ((nextValue + 1) % 2 ^ bits) rest
    | some e =>
      item :: Enums.evalItems bits Eval newValueExpression ((Eval e + 1) % 2 ^ bits) rest

/-- Go `func (enums Enums) Eval()`: every enum is walked with `nextValue` starting at 0;
the items are updated in place through their pointers, which is returned here as the
updated list of enums. -/
def Enums.Eval (bits : Nat) (Eval : E → Nat) (newValueExpression : Nat → E)
    (enums : List (Enum E)) : List (Enum E) :=
  enums.map fun enum =>
    { enum with Items := Enums.evalItems bits Eval newValueExpression 0 enum.Items }

/-! ## The resolution queries -/

/-- How a query can stop without a result. -/
inductive Failure where
  /-- A nil `Import.xml` was dereferenced (Go run-time panic). -/
  | nilDeref
  /-- The `log.Panicf("Could not find base size of type '%s'.", typ)` of `Type.Size`. -/
  | noBaseSize (typ : Typ)
deriving DecidableEq, Repr

/-- Modelled from the spec: the `Context` type is declared outside `xml.go`; the queries
only read its field `xml`, the document being generated ("read access to the resolved
Document"). -/
structure Context (F E : Type) where
  xml : XML F E

mutual
/-- Go `func (x *XML) IsResource(needle Type) bool`. -/
def XML.IsResource (needle : Typ) : XML F E → Except Failure Bool
  | .mk _ _ _ _ _ imports _ xids xidunions _ _ _ _ _ _ _ _ =>
    if xids.any (fun xid => needle == xid.Name) then .ok true
    else if xidunions.any (fun xidunion => needle == xidunion.Name) then .ok true
    else XML.IsResource.imports needle imports
/-- The loop `for _, imp := range x.Imports` of `IsResource`; the method call
`imp.xml.IsResource(needle)` on a nil `imp.xml` dereferences it at `x.Xids`. -/
def XML.IsResource.imports (needle : Typ) : List (Import F E) → Except Failure Bool
  | [] => .ok false
  | .mk _ none :: _ => .error .nilDeref
  | .mk _ (some y) :: rest =>
    match XML.IsResource needle y with
    | .error e => .error e
    | .ok true => .ok true
    | .ok false => XML.IsResource.imports needle rest
end

/-- Go `func (x *XML) HasType(needle Type) bool`: ten loops over the document's own
declaration lists, in the order of the source. -/
def XML.HasType (needle : Typ) (x : XML F E) : Bool :=
  if x.Enums.any (fun enum => needle == enum.Name) then true
  else if x.Xids.any (fun xid => needle == xid.Name) then true
  else if x.XidUnions.any (fun xidunion => needle == xidunion.Name) then true
  else if x.TypeDefs.any (fun typedef => needle == typedef.New) then true
  else if x.EventCopies.any (fun evcopy => needle == evcopy.Name) then true
  else if x.ErrorCopies.any (fun errcopy => needle == errcopy.Name) then true
  else if x.Structs.any (fun strct => needle == strct.Name) then true
  else if x.Unions.any (fun union => needle == union.Name) then true
  else if x.Events.any (fun ev => needle == ev.Name) then true
  else if x.Errors.any (fun err => needle == err.Name) then true
  else false

/-- The loop `for _, typedef := range ... { if typ == typedef.New { return typedef.Old, true } }`
of `Type.TypeDef` over one list of typedefs; `none` when the loop falls through. -/
def Typ.TypeDef.scan (typ : Typ) : List TypeDef → Option (Typ × Bool)
  | [] => none
  | typedef :: rest =>
    if typ == typedef.New then some (typedef.Old, true) else Typ.TypeDef.scan typ rest

/-- The loop `for _, imp := range c.xml.Imports` of `Type.TypeDef`, ending in
`return "", false`. -/
def Typ.TypeDef.imports (typ : Typ) : List (Import F E) → Except Failure (Typ × Bool)
  | [] => .ok ("", false)
  | imp :: rest =>
    match imp.xml with
    | none => .error .nilDeref
    | some y =>
      match Typ.TypeDef.scan typ y.TypeDefs with
      | some r => .ok r
      | none => Typ.TypeDef.imports typ rest

/-- Go `func (typ Type) TypeDef(c *Context) (Type, bool)`. -/
def Typ.TypeDef (typ : Typ) (c : Context F E) : Except Failure (Typ × Bool) :=
  match Typ.TypeDef.scan typ c.xml.TypeDefs with
  | some r => .ok r
  | none => Typ.TypeDef.imports typ c.xml.Imports

/-- The loop `for _, union := range ... { if typ == union.Name { return union } }` of
`Type.Union` over one list of unions. -/
def Typ.Union.scan (typ : Typ) : List (Union F) → Option (Union F)
  | [] => none
  | union :: rest => if typ == union.Name then some union else Typ.Union.scan typ rest

/-- The loop `for _, imp := range c.xml.Imports` of `Type.Union`, ending in `return nil`. -/
def Typ.Union.imports (typ : Typ) : List (Import F E) → Except Failure (Option (Union F))
  | [] => .ok none
  | imp :: rest =>
    match imp.xml with
    | none => .error .nilDeref
    | some y =>
      match Typ.Union.scan typ y.Unions with
      | some union => .ok (some union)
      | none => Typ.Union.imports typ rest

/-- Go `func (typ Type) Union(c *Context) *Union`; the call `oldTyp.Union(c)` is the
recursive call, taken with one unit of fuel less. The `*Union` result is `some union`, or
`none` for nil. -/
def Typ.Union : Nat → Typ → Context F E → Option (Except Failure (Option (Union F)))
  | 0, _, _ => none
  | fuel + 1, typ, c =>
    match Typ.TypeDef typ c with
    | .error e => some (.error e)
    | .ok (oldTyp, true) => Typ.Union fuel oldTyp c
    | .ok (_, false) =>
      match Typ.Union.scan typ c.xml.Unions with
      | some union => some (.ok (some union))
      | none => some (Typ.Union.imports typ c.xml.Imports)

/-- The loop `for _, typedef := range ... { if typ == typedef.New { return typedef.Old.Size(c) } }`
of `Type.Size` over one list of typedefs: the `Old` on which `Size` is called. -/
def Typ.Size.scan (typ : Typ) : List Xgbgen.TypeDef → Option Typ
  | [] => none
  | typedef :: rest =>
    if typ == typedef.New then some typedef.Old else Typ.Size.scan typ rest

/-- The loop `for _, imp := range c.xml.Imports` of `Type.Size`: the `Old` on which `Size`
is called, `.ok none` when the loop falls through to `log.Panicf`. -/
def Typ.Size.imports (typ : Typ) : List (Import F E) → Except Failure (Option Typ)
  | [] => .ok none
  | imp :: rest =>
    match imp.xml with
    | none => .error .nilDeref
    | some y =>
      match Typ.Size.scan typ y.TypeDefs with
      | some old => .ok (some old)
      | none => Typ.Size.imports typ rest

/-- Go `func (typ Type) Size(c *Context) uint`. `BaseTypeSizes` is the
`map[string]uint` of that name, declared outside `xml.go`: `BaseTypeSizes typ` is the
two-value lookup, and the one-value lookup `BaseTypeSizes["Id"]` yields 0 for a missing
key. The calls `typedef.Old.Size(c)` are the recursive calls, taken with one unit of
fuel less. -/
def Typ.Size (BaseTypeSizes : String → Option Nat) :
    Nat → Typ → Context F E → Option (Except Failure Nat)
  | 0, _, _ => none
  | fuel + 1, typ, c =>
    match BaseTypeSizes typ with
    | some size => some (.ok size)
    | none =>
      match c.xml.IsResource typ with
      | .error e => some (.error e)
      | .ok true => some (.ok ((BaseTypeSizes "Id").getD 0))
      | .ok false =>
        match Typ.Size.scan typ c.xml.TypeDefs with
        | some old => Typ.Size BaseTypeSizes fuel old c
        | none =>
          match Typ.Size.imports typ c.xml.Imports with
          | .error e => some (.error e)
          | .ok (some old) => Typ.Size BaseTypeSizes fuel old c
          | .ok none => some (.error (.noBaseSize typ))

/-! ## `XML.Morph` -/

/-- The operations that `XML.Morph` invokes and that are declared outside `xml.go`, as
actions on the output state `σ` reached through the context: `Putln` is
`(*Context).Putln(format, args...)`, the other fields are the `Morph` methods of the
list types. `XML.Xids` and `XML.XidUnions` both have the type `Xids`, so both are handed
to `Xids.Morph`. -/
structure Emitters (F E σ : Type) where
  Putln : String → List String → Context F E → σ → σ
  Imports : List (Import F E) → Context F E → σ → σ
  Enums : List (Enum E) → Context F E → σ → σ
  Xids : List Xid → Context F E → σ → σ
  TypeDefs : List TypeDef → Context F E → σ → σ
  Structs : List (Struct F) → Context F E → σ → σ
  Unions : List (Union F) → Context F E → σ → σ
  Requests : List (Request F) → Context F E → σ → σ
  Errors : List (Error F) → Context F E → σ → σ
  ErrorCopies : List ErrorCopy → Context F E → σ → σ
  Events : List (Event F) → Context F E → σ → σ
  EventCopies : List EventCopy → Context F E → σ → σ

/-- Go `func (x *XML) Morph(c *Context)`, statement by statement; `now` stands for
`time.Now().Format("Jan 2, 2006 at 3:04:05pm MST")`. -/
def XML.Morph {σ : Type} (em : Emitters F E σ) (now : String) (x : XML F E)
    (c : Context F E) (s : σ) : σ :=
  let s := em.Putln "package xgb" [] c s
  let s := em.Putln "/*" [] c s
  let s := em.Putln "\tX protocol API for '%s.xml'." [c.xml.Header] c s
  let s := em.Putln "\tThis file is automatically generated. Edit at your own peril!" [] c s
  let s := em.Putln "\tGenerated on %s" [now] c s
  let s := em.Putln "*/" [] c s
  let s := em.Putln "" [] c s
  let s := em.Imports x.Imports c s
  let s := em.Putln "" [] c s
  let s := em.Enums x.Enums c s
  let s := em.Putln "" [] c s
  let s := em.Xids x.Xids c s
  let s := em.Putln "" [] c s
  let s := em.Xids x.XidUnions c s
  let s := em.Putln "" [] c s
  let s := em.TypeDefs x.TypeDefs c s
  let s := em.Putln "" [] c s
  let s := em.Structs x.Structs c s
  let s := em.Putln "" [] c s
  let s := em.Unions x.Unions c s
  let s := em.Putln "" [] c s
  let s := em.Requests x.Requests c s
  let s := em.Putln "" [] c s
  let s := em.Errors x.Errors c s
  let s := em.Putln "" [] c s
  let s := em.ErrorCopies x.ErrorCopies c s
  let s := em.Putln "" [] c s
  let s := em.Events x.Events c s
  let s := em.Putln "" [] c s
  let s := em.EventCopies x.EventCopies c s
  let s := em.Putln "" [] c s
  s

/-! ## `Imports.Eval` -/

/-- Go `func (imports Imports) Eval()`. `parse name` stands for reading the file
`name.xml` below `*protoPath` and unmarshalling it into a fresh `&XML{}`; it is `none`
when either step fails, where `log.Fatalf` or `log.Fatal` ends the run. The imports are
updated through their pointers, which is returned here as the updated list. -/
def Imports.Eval (parse : String → Option (XML F E)) :
    List (Import F E) → Option (List (Import F E))
  | [] => some []
  | imp :: rest =>
    match parse imp.Name with
    | none => none
    | some y =>
      match Imports.Eval parse rest with
      | none => none
      | some rest2 => some (.mk imp.Name (some y) :: rest2)

/-! ## Notions used to state the properties -/

mutual
/-- Every import of the tree is bound, at every depth. -/
def XML.allBound : XML F E → Bool
  | .mk _ _ _ _ _ imports _ _ _ _ _ _ _ _ _ _ _ => Imports.allBound imports
/-- Every import of the list is bound, and so is every import below it. -/
def Imports.allBound : List (Import F E) → Bool
  | [] => true
  | .mk _ none :: _ => false
  | .mk _ (some y) :: rest => XML.allBound y && Imports.allBound rest
end

mutual
/-- The names of the `Xid`s and `XidUnion`s declared in the document or in a document
reachable from it through bound imports, at any depth. -/
def XML.resourceNames : XML F E → List Typ
  | .mk _ _ _ _ _ imports _ xids xidunions _ _ _ _ _ _ _ _ =>
    xids.map (fun xid => xid.Name) ++ xidunions.map (fun xidunion => xidunion.Name) ++
      Imports.resourceNames imports
/-- The resource names of the documents bound to a list of imports. -/
def Imports.resourceNames : List (Import F E) → List Typ
  | [] => []
  | .mk _ none :: rest => Imports.resourceNames rest
  | .mk _ (some y) :: rest => XML.resourceNames y ++ Imports.resourceNames rest
end

/-- Every direct import of the context's document is bound. -/
def Context.directBound (c : Context F E) : Bool :=
  c.xml.Imports.all fun imp => imp.xml.isSome

/-- The typedefs of the document followed by those of its direct imports, in order. -/
def Context.visibleTypeDefs (c : Context F E) : List Xgbgen.TypeDef :=
  c.xml.TypeDefs ++ c.xml.Imports.flatMap fun imp =>
    match imp.xml with
    | some y => y.TypeDefs
    | none => []

/-- The unions of the document followed by those of its direct imports, in order. -/
def Context.visibleUnions (c : Context F E) : List (Xgbgen.Union F) :=
  c.xml.Unions ++ c.xml.Imports.flatMap fun imp =>
    match imp.xml with
    | some y => y.Unions
    | none => []

/-- One typedef hop as `Type.TypeDef` finds it: the first matching typedef of `a` has
old name `b`. -/
def Context.aliasHop (c : Context F E) (a b : Typ) : Prop :=
  Typ.TypeDef a c = .ok (b, true)

/-- One typedef hop as `Type.Size` takes it: `a` is neither a key of `BaseTypeSizes` nor
a resource, and its first matching typedef has old name `b`. -/
def Context.sizeHop (BaseTypeSizes : String → Option Nat) (c : Context F E) (a b : Typ) :
    Prop :=
  BaseTypeSizes a = none ∧ c.xml.IsResource a = .ok false ∧ Typ.TypeDef a c = .ok (b, true)

/-- A typedef hop between names that are not keys of `BaseTypeSizes`. -/
def Context.nonBaseHop (BaseTypeSizes : String → Option Nat) (c : Context F E) (a b : Typ) :
    Prop :=
  BaseTypeSizes a = none ∧ Typ.TypeDef a c = .ok (b, true)

/-! ## Sample documents -/

/-- A document with the given imports, resources, typedefs and unions and nothing else. -/
def Sample.doc (imports : List (Import Nat Nat)) (xids xidunions : List Xid)
    (typedefs : List Xgbgen.TypeDef) (unions : List (Xgbgen.Union Nat)) : XML Nat Nat :=
  .mk "sample" "" "" "" "" imports [] xids xidunions typedefs [] [] [] unions [] [] []

/-- A base-type size table with three keys. -/
def Sample.sizes : String → Option Nat
  | "Id" => some 4
  | "CARD8" => some 1
  | "CARD16" => some 2
  | _ => none

/-- Typedefs `T -> T1 -> T2`, where only `T2` is a union. -/
def Sample.twoHops : Context Nat Nat :=
  ⟨Sample.doc [] [] [] [⟨"T1", "T"⟩, ⟨"T2", "T1"⟩] [⟨"T2", 7⟩]⟩

/-- A resource and a typedef that both carry the name of the base type `CARD8`. -/
def Sample.shadowed : Context Nat Nat :=
  ⟨Sample.doc [] [⟨"CARD8"⟩] [] [⟨"CARD16", "CARD8"⟩] []⟩

/-- Typedefs `CARD16 -> T1 -> CARD8`: the new name of the first one is a base type. -/
def Sample.aliasOfBase : Context Nat Nat :=
  ⟨Sample.doc [] [] [] [⟨"T1", "CARD16"⟩, ⟨"CARD8", "T1"⟩] []⟩

/-- Typedefs `T2 -> T1 -> CARD8`, where `T1` is also declared as a resource. -/
def Sample.aliasOfResource : Context Nat Nat :=
  ⟨Sample.doc [] [⟨"T1"⟩] [] [⟨"T1", "T2"⟩, ⟨"CARD8", "T1"⟩] []⟩

/-- Typedefs `T2 -> T1 -> CARD8` and nothing else. -/
def Sample.aliasChain : Context Nat Nat :=
  ⟨Sample.doc [] [] [] [⟨"T1", "T2"⟩, ⟨"CARD8", "T1"⟩] []⟩

/-- A document importing `res`, which declares the resource `WINDOW`, with the typedefs
`W2 -> W1 -> WINDOW`. -/
def Sample.resourceChain : Context Nat Nat :=
  ⟨Sample.doc [.mk "res" (some (Sample.doc [] [⟨"WINDOW"⟩] [] [] []))] [] []
    [⟨"W1", "W2"⟩, ⟨"WINDOW", "W1"⟩] []⟩

/-- A document importing `mid`, which imports `deep`; only `deep` declares a typedef, the
typedef `Deep -> CARD8`. -/
def Sample.nested : Context Nat Nat :=
  ⟨Sample.doc
    [.mk "mid" (some (Sample.doc
      [.mk "deep" (some (Sample.doc [] [] [] [⟨"CARD8", "Deep"⟩] []))] [] [] [] []))]
    [] [] [] []⟩

/-- A document importing `mid`, which imports `deep`; only `deep` declares a union, `U`. -/
def Sample.nestedUnion : Context Nat Nat :=
  ⟨Sample.doc
    [.mk "mid" (some (Sample.doc
      [.mk "deep" (some (Sample.doc [] [] [] [] [⟨"U", 3⟩]))] [] [] [] []))]
    [] [] [] []⟩

/-- A document declaring the union `U` and importing two documents that declare a union
`U` as well as, the second one only, a union `V`. -/
def Sample.unionOrder : Context Nat Nat :=
  ⟨Sample.doc
    [.mk "one" (some (Sample.doc [] [] [] [] [⟨"U", 2⟩])),
     .mk "two" (some (Sample.doc [] [] [] [] [⟨"U", 3⟩, ⟨"V", 4⟩]))]
    [] [] [] [⟨"U", 1⟩]⟩

/-- Typedefs `A -> B`, `B -> A` and `S -> S`: two alias cycles. -/
def Sample.cycles : Context Nat Nat :=
  ⟨Sample.doc [] [] [] [⟨"B", "A"⟩, ⟨"A", "B"⟩, ⟨"S", "S"⟩] []⟩

/-- The typedef `U -> V` next to unions named `U` and `V`. -/
def Sample.aliasedUnion : Context Nat Nat :=
  ⟨Sample.doc [] [] [] [⟨"V", "U"⟩] [⟨"U", 1⟩, ⟨"V", 2⟩]⟩

/-- One thing `XML.Morph` does: a call of `Putln`, or the call of the `Morph` method of a
declaration list. -/
inductive Emission (F E : Type) where
  | line (format : String) (args : List String)
  | imports (v : List (Import F E))
  | enums (v : List (Enum E))
  | xids (v : List Xid)
  | typeDefs (v : List Xgbgen.TypeDef)
  | structs (v : List (Struct F))
  | unions (v : List (Xgbgen.Union F))
  | requests (v : List (Request F))
  | errors (v : List (Error F))
  | errorCopies (v : List ErrorCopy)
  | events (v : List (Event F))
  | eventCopies (v : List EventCopy)

/-- Performing one emission with the given emitters. -/
def Emitters.run {σ : Type} (em : Emitters F E σ) (c : Context F E) :
    Emission F E → σ → σ
  | .line format args => em.Putln format args c
  | .imports v => em.Imports v c
  | .enums v => em.Enums v c
  | .xids v => em.Xids v c
  | .typeDefs v => em.TypeDefs v c
  | .structs v => em.Structs v c
  | .unions v => em.Unions v c
  | .requests v => em.Requests v c
  | .errors v => em.Errors v c
  | .errorCopies v => em.ErrorCopies v c
  | .events v => em.Events v c
  | .eventCopies v => em.EventCopies v c

/-- Emitters that only record, in order, what they are asked to do. -/
def Emitters.log : Emitters F E (List (Emission F E)) where
  Putln := fun format args _ s => s ++ [.line format args]
  Imports := fun v _ s => s ++ [.imports v]
  Enums := fun v _ s => s ++ [.enums v]
  Xids := fun v _ s => s ++ [.xids v]
  TypeDefs := fun v _ s => s ++ [.typeDefs v]
  Structs := fun v _ s => s ++ [.structs v]
  Unions := fun v _ s => s ++ [.unions v]
  Requests := fun v _ s => s ++ [.requests v]
  Errors := fun v _ s => s ++ [.errors v]
  ErrorCopies := fun v _ s => s ++ [.errorCopies v]
  Events := fun v _ s => s ++ [.events v]
  EventCopies := fun v _ s => s ++ [.eventCopies v]

/-- The lines of the file header. -/
def Morph.header (now : String) (c : Context F E) : List (Emission F E) :=
  [.line "package xgb" [], .line "/*" [],
   .line "\tX protocol API for '%s.xml'." [c.xml.Header],
   .line "\tThis file is automatically generated. Edit at your own peril!" [],
   .line "\tGenerated on %s" [now], .line "*/" [], .line "" []]

/-- The declaration categories in the order fixed for emission: imports, enums, resource
types, resource unions, type aliases, structs, unions, requests, errors, error aliases,
events, event aliases. -/
def Morph.categories (x : XML F E) : List (Emission F E) :=
  [.imports x.Imports, .enums x.Enums, .xids x.Xids, .xids x.XidUnions,
   .typeDefs x.TypeDefs, .structs x.Structs, .unions x.Unions, .requests x.Requests,
   .errors x.Errors, .errorCopies x.ErrorCopies, .events x.Events,
   .eventCopies x.EventCopies]

/-- The header, then every category followed by one empty line. -/
def Morph.script (now : String) (x : XML F E) (c : Context F E) : List (Emission F E) :=
  Morph.header now c ++ (Morph.categories x).flatMap fun e => [e, .line "" []]

/-- The document with its import list replaced, as left by the in-place update of
`Imports.Eval`. -/
def XML.setImports : XML F E → List (Import F E) → XML F E
  | .mk h1 h2 h3 h4 h5 _ enums xids xidunions typedefs evcopies errcopies structs unions
      requests events errors, imports =>
    .mk h1 h2 h3 h4 h5 imports enums xids xidunions typedefs evcopies errcopies structs unions
      requests events errors

/-- A freshly parsed document: the field `xml` of `Import` is tagged `xml:"-"`, so the
decoder leaves every import of the document unbound. -/
def XML.fresh (y : XML F E) : Bool :=
  y.Imports.all fun imp => imp.xml.isNone

/-- The names of the `Xid`s and `XidUnion`s declared in the document itself. -/
def XML.ownResourceNames (x : XML F E) : List Typ :=
  x.Xids.map (fun xid => xid.Name) ++ x.XidUnions.map fun xidunion => xidunion.Name

/-- Description files: `mid.xml` declares the resource `PICTURE` and imports `deep`,
`deep.xml` declares the resource `WINDOW`. -/
def Sample.files : String → Option (XML Nat Nat)
  | "mid" => some (Sample.doc [.mk "deep" none] [⟨"PICTURE"⟩] [] [] [])
  | "deep" => some (Sample.doc [] [⟨"WINDOW"⟩] [] [] [])
  | _ => none

/-- A root document as parsed: it declares the resource `REGION` and imports `mid`. -/
def Sample.root : XML Nat Nat :=
  Sample.doc [.mk "mid" none] [⟨"REGION"⟩] [] [] []

/-- The root document after `Imports.Eval`: `mid` is bound, its import `deep` is not. -/
def Sample.evaluated : Context Nat Nat :=
  ⟨Sample.doc [.mk "mid" (some (Sample.doc [.mk "deep" none] [⟨"PICTURE"⟩] [] [] []))]
    [⟨"REGION"⟩] [] [] []⟩

/-- The root of `Sample.evaluated` with the additional typedef `COORD -> CARD16`. -/
def Sample.evaluatedAlias : Context Nat Nat :=
  ⟨Sample.doc [.mk "mid" (some (Sample.doc [.mk "deep" none] [⟨"PICTURE"⟩] [] [] []))]
    [⟨"REGION"⟩] [] [⟨"CARD16", "COORD"⟩] []⟩

mutual
/-- The document `y` is the document `x` with the entries of declaration lists
reordered: in the document itself, its list of imports included, and in the documents
bound to its imports, at any depth. -/
def XML.Reordered : XML F E → XML F E → Prop
  | .mk h1 h2 h3 h4 h5 imports enums xids xidunions typedefs evcopies errcopies structs unions
      requests events errors, y =>
    y.Header = h1 ∧ y.ExtensionXName = h2 ∧ y.ExtensionName = h3 ∧ y.MajorVersion = h4 ∧
    y.MinorVersion = h5 ∧
    enums.Perm y.Enums ∧ xids.Perm y.Xids ∧ xidunions.Perm y.XidUnions ∧
    typedefs.Perm y.TypeDefs ∧ evcopies.Perm y.EventCopies ∧ errcopies.Perm y.ErrorCopies ∧
    structs.Perm y.Structs ∧ unions.Perm y.Unions ∧ requests.Perm y.Requests ∧
    events.Perm y.Events ∧ errors.Perm y.Errors ∧
    ∃ l, Imports.Reordered imports l ∧ l.Perm y.Imports
/-- The list `l` holds, position by position, the imports of the first list with their
documents reordered. -/
def Imports.Reordered : List (Import F E) → List (Import F E) → Prop
  | [], l => l = []
  | .mk n none :: rest, l => ∃ rest2, l = .mk n none :: rest2 ∧ Imports.Reordered rest rest2
  | .mk n (some x) :: rest, l =>
    ∃ y rest2, l = .mk n (some y) :: rest2 ∧ XML.Reordered x y ∧ Imports.Reordered rest rest2
end

/-- The typedefs of the direct imports, in order. -/
def Context.importedTypeDefs (c : Context F E) : List Xgbgen.TypeDef :=
  c.xml.Imports.flatMap fun imp =>
    match imp.xml with
    | some y => y.TypeDefs
    | none => []

/-- The unions of the direct imports, in order. -/
def Context.importedUnions (c : Context F E) : List (Xgbgen.Union F) :=
  c.xml.Imports.flatMap fun imp =>
    match imp.xml with
    | some y => y.Unions
    | none => []

/-- No two typedefs of the document share a new name and no two of its unions share a
name; the same holds for the typedefs and for the unions of its direct imports taken
together. -/
def Context.uniqueNames (c : Context F E) : Prop :=
  (c.xml.TypeDefs.map fun typedef => typedef.New).Nodup ∧
  (c.importedTypeDefs.map fun typedef => typedef.New).Nodup ∧
  (c.xml.Unions.map fun union => union.Name).Nodup ∧
  (c.importedUnions.map fun union => union.Name).Nodup

/-- A document importing `one` and `two`, which both declare a typedef `T` and a union
`U`: `T -> CARD8` and `U` with fields 1 in `one`, `T -> CARD16` and `U` with fields 2 in
`two`. -/
def Sample.oneTwo : Context Nat Nat :=
  ⟨Sample.doc
    [.mk "one" (some (Sample.doc [] [] [] [⟨"CARD8", "T"⟩] [⟨"U", 1⟩])),
     .mk "two" (some (Sample.doc [] [] [] [⟨"CARD16", "T"⟩] [⟨"U", 2⟩]))]
    [] [] [] []⟩

/-- The document `Sample.oneTwo` with its two imports exchanged. -/
def Sample.twoOne : Context Nat Nat :=
  ⟨Sample.doc
    [.mk "two" (some (Sample.doc [] [] [] [⟨"CARD16", "T"⟩] [⟨"U", 2⟩])),
     .mk "one" (some (Sample.doc [] [] [] [⟨"CARD8", "T"⟩] [⟨"U", 1⟩]))]
    [] [] [] []⟩

/-- A document with two resources, two typedefs and two unions that imports a document
declaring a resource, a typedef and a union. -/
def Sample.ordered : Context Nat Nat :=
  ⟨Sample.doc
    [.mk "base" (some (Sample.doc [] [⟨"WINDOW"⟩] [] [⟨"CARD16", "COORD"⟩] [⟨"V", 3⟩]))]
    [⟨"REGION"⟩, ⟨"PICTURE"⟩] [] [⟨"CARD8", "BYTE1"⟩, ⟨"WINDOW", "WIN"⟩]
    [⟨"U", 1⟩, ⟨"W", 2⟩]⟩

/-- The document `Sample.ordered` with its resources, typedefs and unions exchanged. -/
def Sample.reordered : Context Nat Nat :=
  ⟨Sample.doc
    [.mk "base" (some (Sample.doc [] [⟨"WINDOW"⟩] [] [⟨"CARD16", "COORD"⟩] [⟨"V", 3⟩]))]
    [⟨"PICTURE"⟩, ⟨"REGION"⟩] [] [⟨"WINDOW", "WIN"⟩, ⟨"CARD8", "BYTE1"⟩]
    [⟨"W", 2⟩, ⟨"U", 1⟩]⟩

/-- The single typedef `CARD16 -> X`: its new name is a base type, its old name is
declared nowhere. -/
def Sample.baseAlias : Context Nat Nat :=
  ⟨Sample.doc [] [] [] [⟨"X", "CARD16"⟩] []⟩

/-! ## Enum values -/

theorem Enums.evalItems_length (bits : Nat) (Eval : E → Nat) (newValueExpression : Nat → E)
    (items : List (EnumItem E)) :
    ∀ nextValue,
      (Enums.evalItems bits Eval newValueExpression nextValue items).length = items.length := by
  induction items with
  | nil => intro nextValue; rfl
  | cons item rest ih =>
    intro nextValue
    cases h : item.Expr with
    | none => simp [Enums.evalItems, h, ih]
    | some e => simp [Enums.evalItems, h, ih]

/-- What `evalItems` leaves at position `j`, for a counter `nextValue` that is a `uint`. -/
theorem Enums.evalItems_getElem (bits : Nat) (Eval : E → Nat) (newValueExpression : Nat → E)
    (hnew : ∀ v, v < 2 ^ bits → Eval (newValueExpression v) = v)
    (items : List (EnumItem E)) :
    ∀ nextValue, nextValue < 2 ^ bits → ∀ j item, items[j]? = some item →
      ∃ item', (Enums.evalItems bits Eval newValueExpression nextValue items)[j]? = some item' ∧
        item'.Name = item.Name ∧
        (∀ e, item.Expr = some e → item' = item) ∧
        (item.Expr = none →
          (j = 0 → item'.Expr = some (newValueExpression nextValue)) ∧
          (∀ k prev, j = k + 1 →
            (Enums.evalItems bits Eval newValueExpression nextValue items)[k]? = some prev →
            ∃ pe, prev.Expr = some pe ∧
              item'.Expr = some (newValueExpression ((Eval pe + 1) % 2 ^ bits)))) := by
  have hpos : 0 < 2 ^ bits := Nat.two_pow_pos bits
  induction items with
  | nil => intro nextValue _ j item h; simp at h
  | cons item0 rest ih =>
    intro nextValue hlt j item hj
    cases j with
    | zero =>
      simp only [List.getElem?_cons_zero, Option.some.injEq] at hj
      subst hj
      cases h : item0.Expr with
      | none =>
        refine ⟨{ item0 with Expr := some (newValueExpression nextValue) }, ?_, rfl, ?_, ?_⟩
        · simp [Enums.evalItems, h]
        · intro e he; simp at he
        · intro _
          refine ⟨fun _ => rfl, ?_⟩
          intro k prev hk; omega
      | some e =>
        refine ⟨item0, ?_, rfl, fun _ _ => rfl, ?_⟩
        · simp [Enums.evalItems, h]
        · intro hn; simp at hn
    | succ k =>
      simp only [List.getElem?_cons_succ] at hj
      cases h : item0.Expr with
      | none =>
        obtain ⟨item', h1, h2, h3, h4⟩ :=
          ih ((nextValue + 1) % 2 ^ bits) (Nat.mod_lt _ hpos) k item hj
        refine ⟨item', ?_, h2, h3, ?_⟩
        · simp [Enums.evalItems, h, h1]
        · intro hn
          refine ⟨fun h0 => by omega, ?_⟩
          intro k' prev hk hprev
          have hk' : k' = k := by omega
          subst hk'
          simp only [Enums.evalItems, h] at hprev
          cases k' with
          | zero =>
            simp only [List.getElem?_cons_zero, Option.some.injEq] at hprev
            subst hprev
            refine ⟨newValueExpression nextValue, rfl, ?_⟩
            rw [hnew nextValue hlt]
            exact (h4 hn).1 rfl
          | succ m =>
            simp only [List.getElem?_cons_succ] at hprev
            exact (h4 hn).2 m prev rfl hprev
      | some e =>
        obtain ⟨item', h1, h2, h3, h4⟩ :=
          ih ((Eval e + 1) % 2 ^ bits) (Nat.mod_lt _ hpos) k item hj
        refine ⟨item', ?_, h2, h3, ?_⟩
        · simp [Enums.evalItems, h, h1]
        · intro hn
          refine ⟨fun h0 => by omega, ?_⟩
          intro k' prev hk hprev
          have hk' : k' = k := by omega
          subst hk'
          simp only [Enums.evalItems, h] at hprev
          cases k' with
          | zero =>
            simp only [List.getElem?_cons_zero, Option.some.injEq] at hprev
            subst hprev
            exact ⟨e, h, (h4 hn).1 rfl⟩
          | succ m =>
            simp only [List.getElem?_cons_succ] at hprev
            exact (h4 hn).2 m prev rfl hprev

/-- C1: after `Enums.Eval`, in every enum an item that had no expression holds the value
expression of 0 when it is the first item and of the previous item's value plus 1 (modulo
`2 ^ bits`, Go `uint`) otherwise, an item with an explicit expression is unchanged, and
each enum is resolved as if it were alone (its counter starts at 0). Items
`[A, B(=5), C]` resolve to `[0, 5, 6]` and `[A, B, C]` to `[0, 1, 2]`. Here
`newValueExpression v` is assumed to evaluate to `v`, and `uint` to be 32 or 64 bits. -/
theorem C1_enums_eval (bits : Nat) (Eval : E → Nat) (newValueExpression : Nat → E)
    (hbits : bits = 32 ∨ bits = 64)
    (hnew : ∀ v, v < 2 ^ bits → Eval (newValueExpression v) = v) :
    (∀ (enums : List (Enum E)) (i : Nat) (enum : Enum E), enums[i]? = some enum →
      ∃ enum', (Enums.Eval bits Eval newValueExpression enums)[i]? = some enum' ∧
        Enums.Eval bits Eval newValueExpression [enum] = [enum'] ∧
        enum'.Name = enum.Name ∧
        enum'.Items.length = enum.Items.length ∧
        ∀ (j : Nat) (item : EnumItem E), enum.Items[j]? = some item →
          ∃ item', enum'.Items[j]? = some item' ∧
            item'.Name = item.Name ∧
            (∀ e, item.Expr = some e → item' = item) ∧
            (item.Expr = none →
              (j = 0 → item'.Expr = some (newValueExpression 0)) ∧
              (∀ k prev, j = k + 1 → enum'.Items[k]? = some prev →
                ∃ pe, prev.Expr = some pe ∧
                  item'.Expr = some (newValueExpression ((Eval pe + 1) % 2 ^ bits))))) ∧
    (∀ (n a b c : String) (x : E), Eval x = 5 →
      ((Enums.Eval bits Eval newValueExpression
          [⟨n, [⟨a, none⟩, ⟨b, some x⟩, ⟨c, none⟩]⟩]).map
        fun enum => enum.Items.map fun item => item.Expr.map Eval) =
        [[some 0, some 5, some 6]]) ∧
    (∀ (n a b c : String),
      ((Enums.Eval bits Eval newValueExpression
          [⟨n, [⟨a, none⟩, ⟨b, none⟩, ⟨c, none⟩]⟩]).map
        fun enum => enum.Items.map fun item => item.Expr.map Eval) =
        [[some 0, some 1, some 2]]) := by
  have hpos : 0 < 2 ^ bits := Nat.two_pow_pos bits
  have hbig : 2 ^ 32 ≤ 2 ^ bits := by
    rcases hbits with h | h <;> subst h <;> norm_num
  have hsmall : ∀ v, v < 7 → v % 2 ^ bits = v := fun v hv =>
    Nat.mod_eq_of_lt (by have : (7 : Nat) < 2 ^ 32 := by norm_num
                         omega)
  have hval : ∀ v, v < 7 → Eval (newValueExpression v) = v := fun v hv =>
    hnew v (by have : (7 : Nat) < 2 ^ 32 := by norm_num
               omega)
  refine ⟨?_, ?_, ?_⟩
  · intro enums i enum hi
    refine ⟨{ enum with
      Items := Enums.evalItems bits Eval newValueExpression 0 enum.Items }, ?_, rfl, rfl, ?_, ?_⟩
    · simp [Enums.Eval, List.getElem?_map, hi]
    · exact Enums.evalItems_length bits Eval newValueExpression enum.Items 0
    · intro j item hj
      exact Enums.evalItems_getElem bits Eval newValueExpression hnew enum.Items 0 hpos j item hj
  · intro n a b c x hx
    simp [Enums.Eval, Enums.evalItems, hx, hsmall, hval]
  · intro n a b c
    simp [Enums.Eval, Enums.evalItems, hsmall, hval]

/-- C1 at 64-bit `uint` with numerals as expressions: the premises hold, and the enum
`[A, B(=2^64-1), C]` resolves to `[0, 2^64-1, 0]` through the general statement. -/
theorem C1_enums_eval_witness :
    (64 = 32 ∨ 64 = 64) ∧ (∀ v, v < 2 ^ 64 → (fun e : Nat => e % 2 ^ 64) ((fun v => v) v) = v) ∧
    Enums.Eval 64 (fun e : Nat => e % 2 ^ 64) (fun v => v)
        [⟨"e", [⟨"A", none⟩, ⟨"B", some (2 ^ 64 - 1)⟩, ⟨"C", none⟩]⟩] =
      [⟨"e", [⟨"A", some 0⟩, ⟨"B", some (2 ^ 64 - 1)⟩, ⟨"C", some 0⟩]⟩] ∧
    (∀ (n a b c : String),
      ((Enums.Eval 64 (fun e : Nat => e % 2 ^ 64) (fun v => v)
          [⟨n, [⟨a, none⟩, ⟨b, none⟩, ⟨c, none⟩]⟩]).map
        fun enum => enum.Items.map fun item => item.Expr.map (fun e : Nat => e % 2 ^ 64)) =
        [[some 0, some 1, some 2]]) :=
  ⟨Or.inr rfl, fun v hv => Nat.mod_eq_of_lt hv, by decide,
    (C1_enums_eval 64 (fun e : Nat => e % 2 ^ 64) (fun v => v) (Or.inr rfl)
      (fun v hv => Nat.mod_eq_of_lt hv)).2.2⟩

/-! ## The typedef search -/

theorem Typ.TypeDef.scan_eq_find (typ : Typ) (l : List Xgbgen.TypeDef) :
    Typ.TypeDef.scan typ l =
      (l.find? fun typedef => typ == typedef.New).map fun typedef => (typedef.Old, true) := by
  induction l with
  | nil => rfl
  | cons typedef rest ih =>
    by_cases h : (typ == typedef.New) = true
    · simp [Typ.TypeDef.scan, List.find?_cons, h]
    · simp only [Bool.not_eq_true] at h
      simp [Typ.TypeDef.scan, List.find?_cons, h, ih]

theorem Typ.TypeDef.scan_snd (typ : Typ) (l : List Xgbgen.TypeDef) (r : Typ × Bool)
    (h : Typ.TypeDef.scan typ l = some r) : r.2 = true := by
  rw [Typ.TypeDef.scan_eq_find] at h
  cases hf : l.find? (fun typedef => typ == typedef.New) with
  | none => simp [hf] at h
  | some td =>
    simp [hf] at h
    rw [← h]

theorem Typ.TypeDef.imports_cases (typ : Typ) (imps : List (Import F E)) :
    Typ.TypeDef.imports typ imps = .error .nilDeref ∨
    (∃ old, Typ.TypeDef.imports typ imps = .ok (old, true)) ∨
    (Typ.TypeDef.imports typ imps = .ok ("", false) ∧ ∀ imp ∈ imps, imp.xml.isSome = true) := by
  induction imps with
  | nil => right; right; exact ⟨rfl, by simp⟩
  | cons imp rest ih =>
    cases hx : imp.xml with
    | none => left; simp [Typ.TypeDef.imports, hx]
    | some y =>
      cases hs : Typ.TypeDef.scan typ y.TypeDefs with
      | some r =>
        right; left
        refine ⟨r.1, ?_⟩
        have := Typ.TypeDef.scan_snd typ _ r hs
        simp only [Typ.TypeDef.imports, hx, hs]
        rw [← this]
      | none =>
        simp only [Typ.TypeDef.imports, hx, hs]
        rcases ih with h | h | ⟨h, hb⟩
        · exact Or.inl h
        · exact Or.inr (Or.inl h)
        · refine Or.inr (Or.inr ⟨h, ?_⟩)
          intro i hi
          rcases List.mem_cons.1 hi with rfl | hi
          · simp [hx]
          · exact hb i hi

/-- The three ways `Type.TypeDef` can end. -/
theorem Typ.TypeDef_cases (typ : Typ) (c : Context F E) :
    Typ.TypeDef typ c = .error .nilDeref ∨
    (∃ old, Typ.TypeDef typ c = .ok (old, true)) ∨
    (Typ.TypeDef typ c = .ok ("", false) ∧ c.directBound = true) := by
  unfold Typ.TypeDef
  cases hs : Typ.TypeDef.scan typ c.xml.TypeDefs with
  | some r =>
    right; left
    refine ⟨r.1, ?_⟩
    have := Typ.TypeDef.scan_snd typ _ r hs
    simp only []
    rw [← this]
  | none =>
    simp only []
    rcases Typ.TypeDef.imports_cases typ c.xml.Imports with h | h | ⟨h, hb⟩
    · exact Or.inl h
    · exact Or.inr (Or.inl h)
    · exact Or.inr (Or.inr ⟨h, by simpa [Context.directBound, List.all_eq_true] using hb⟩)

theorem Typ.TypeDef.imports_eq_find (typ : Typ) (imps : List (Import F E))
    (hb : ∀ imp ∈ imps, imp.xml.isSome = true) :
    Typ.TypeDef.imports typ imps =
      .ok (match (imps.flatMap fun imp =>
              match imp.xml with
              | some y => y.TypeDefs
              | none => []).find? fun typedef => typ == typedef.New with
           | some typedef => (typedef.Old, true)
           | none => ("", false)) := by
  induction imps with
  | nil => rfl
  | cons imp rest ih =>
    have hrest := ih fun i hi => hb i (List.mem_cons_of_mem _ hi)
    cases hx : imp.xml with
    | none =>
      have := hb imp (List.mem_cons_self _ _)
      simp [hx] at this
    | some y =>
      simp only [Typ.TypeDef.imports, hx, List.flatMap_cons, List.find?_append,
        Typ.TypeDef.scan_eq_find]
      cases hf : y.TypeDefs.find? (fun typedef => typ == typedef.New) with
      | some td => simp
      | none => simpa using hrest

/-- On a document whose direct imports are bound, `Type.TypeDef` is the first match in
the document's typedefs followed by those of the direct imports. -/
theorem Typ.TypeDef_eq_find (typ : Typ) (c : Context F E) (hb : c.directBound = true) :
    Typ.TypeDef typ c =
      .ok (match c.visibleTypeDefs.find? fun typedef => typ == typedef.New with
           | some typedef => (typedef.Old, true)
           | none => ("", false)) := by
  have hb' : ∀ imp ∈ c.xml.Imports, imp.xml.isSome = true := by
    simpa [Context.directBound, List.all_eq_true] using hb
  unfold Typ.TypeDef Context.visibleTypeDefs
  rw [List.find?_append, Typ.TypeDef.scan_eq_find]
  cases hf : c.xml.TypeDefs.find? (fun typedef => typ == typedef.New) with
  | some td => simp
  | none => simpa using Typ.TypeDef.imports_eq_find typ c.xml.Imports hb'

/-! ## The union search -/

theorem Typ.Union.union_scan_eq_find (typ : Typ) (l : List (Xgbgen.Union F)) :
    Typ.Union.scan typ l = l.find? fun union => typ == union.Name := by
  induction l with
  | nil => rfl
  | cons union rest ih =>
    by_cases h : (typ == union.Name) = true
    · simp [Typ.Union.scan, List.find?_cons, h]
    · simp only [Bool.not_eq_true] at h
      simp [Typ.Union.scan, List.find?_cons, h, ih]

theorem Typ.Union.union_imports_eq_find (typ : Typ) (imps : List (Import F E))
    (hb : ∀ imp ∈ imps, imp.xml.isSome = true) :
    Typ.Union.imports typ imps =
      .ok ((imps.flatMap fun imp =>
              match imp.xml with
              | some y => y.Unions
              | none => []).find? fun union => typ == union.Name) := by
  induction imps with
  | nil => rfl
  | cons imp rest ih =>
    have hrest := ih fun i hi => hb i (List.mem_cons_of_mem _ hi)
    cases hx : imp.xml with
    | none =>
      have := hb imp (List.mem_cons_self _ _)
      simp [hx] at this
    | some y =>
      simp only [Typ.Union.imports, hx, List.flatMap_cons, List.find?_append,
        Typ.Union.union_scan_eq_find]
      cases hf : y.Unions.find? (fun union => typ == union.Name) with
      | some u => simp
      | none => simpa using hrest

/-- A name without typedef resolves to the first union of that name among the document's
unions followed by those of the direct imports. -/
theorem Typ.Union_of_no_typedef (typ : Typ) (c : Context F E)
    (h : Typ.TypeDef typ c = .ok ("", false)) (fuel : Nat) :
    Typ.Union (fuel + 1) typ c =
      some (.ok (c.visibleUnions.find? fun union => typ == union.Name)) := by
  have hb : c.directBound = true := by
    rcases Typ.TypeDef_cases typ c with h1 | ⟨old, h1⟩ | ⟨_, hb⟩
    · rw [h1] at h; cases h
    · rw [h1] at h; cases h
    · exact hb
  have hb' : ∀ imp ∈ c.xml.Imports, imp.xml.isSome = true := by
    simpa [Context.directBound, List.all_eq_true] using hb
  simp only [Typ.Union, h, Context.visibleUnions, List.find?_append, Typ.Union.union_scan_eq_find,
    Typ.Union.union_imports_eq_find typ c.xml.Imports hb']
  cases hf : c.xml.Unions.find? (fun union => typ == union.Name) with
  | some u => simp
  | none => simp

/-- A typedef hop in `Type.Union`: the call returns what the call on the old name returns. -/
theorem Typ.Union_of_typedef (typ old : Typ) (c : Context F E)
    (h : Typ.TypeDef typ c = .ok (old, true)) (fuel : Nat) :
    Typ.Union (fuel + 1) typ c = Typ.Union fuel old c := by
  simp only [Typ.Union, h]

/-! ## Two typedef hops -/

/-- C2, as the code behaves: `Type.Union` follows every typedef hop. If the first typedef
of `T` leads to `T1` and the first typedef of `T1` leads to `T2`, then `Union(T)` returns
what `Union(T2)` returns; when `T2` is not the new name of a typedef, that is the first
union named `T2` among the document's unions followed by those of its direct imports,
so it is not nil as soon as such a union exists. -/
theorem C2_union_follows_both_hops (c : Context F E) (T T1 T2 : Typ)
    (h1 : Typ.TypeDef T c = .ok (T1, true)) (h2 : Typ.TypeDef T1 c = .ok (T2, true)) :
    (∀ fuel, Typ.Union (fuel + 2) T c = Typ.Union fuel T2 c) ∧
    (Typ.TypeDef T2 c = .ok ("", false) →
      ∀ fuel, Typ.Union (fuel + 3) T c =
        some (.ok (c.visibleUnions.find? fun union => T2 == union.Name))) ∧
    (Typ.TypeDef T2 c = .ok ("", false) →
      ∀ u ∈ c.visibleUnions, u.Name = T2 →
        ∀ fuel, ∃ v, v.Name = T2 ∧ v ∈ c.visibleUnions ∧
          Typ.Union (fuel + 3) T c = some (.ok (some v))) := by
  have hop : ∀ fuel, Typ.Union (fuel + 2) T c = Typ.Union fuel T2 c := fun fuel => by
    rw [Typ.Union_of_typedef T T1 c h1, Typ.Union_of_typedef T1 T2 c h2]
  have hend : Typ.TypeDef T2 c = .ok ("", false) →
      ∀ fuel, Typ.Union (fuel + 3) T c =
        some (.ok (c.visibleUnions.find? fun union => T2 == union.Name)) := fun h3 fuel => by
    rw [hop (fuel + 1), Typ.Union_of_no_typedef T2 c h3]
  refine ⟨hop, hend, ?_⟩
  intro h3 u hu hname fuel
  cases hf : c.visibleUnions.find? (fun union => T2 == union.Name) with
  | none =>
    have := List.find?_eq_none.1 hf u hu
    simp [hname] at this
  | some v =>
    refine ⟨v, ?_, List.mem_of_find?_eq_some hf, ?_⟩
    · have := List.find?_some hf
      exact (by simpa using this : T2 = v.Name).symm
    · rw [hend h3 fuel, hf]

/-- C2 on the sample `T -> T1 -> T2`: the premises hold there and `Union("T")` is the
union `T2`. -/
theorem C2_union_follows_both_hops_witness :
    Typ.TypeDef "T" Sample.twoHops = .ok ("T1", true) ∧
    Typ.TypeDef "T1" Sample.twoHops = .ok ("T2", true) ∧
    Typ.TypeDef "T2" Sample.twoHops = .ok ("", false) ∧
    Typ.Union 3 "T" Sample.twoHops =
      some (.ok (Sample.twoHops.visibleUnions.find? fun union => "T2" == union.Name)) ∧
    (Sample.twoHops.visibleUnions.find? fun union => "T2" == union.Name) = some ⟨"T2", 7⟩ :=
  ⟨rfl, rfl, rfl, (C2_union_follows_both_hops Sample.twoHops "T" "T1" "T2" rfl rfl).2.1 rfl 0,
    rfl⟩

/-- C2 as stated fails: in the sample, `T` is the new name of a typedef to `T1`, `T1` of
a typedef to `T2`, and `T2` is the only union name, yet `Union("T")` never returns nil:
it returns the union `T2` as soon as the recursion depth 3 is allowed. -/
theorem C2_single_hop_counterexample :
    Sample.twoHops.xml.TypeDefs = [⟨"T1", "T"⟩, ⟨"T2", "T1"⟩] ∧
    Sample.twoHops.xml.Imports = [] ∧
    Sample.twoHops.xml.Unions.map (fun union => union.Name) = ["T2"] ∧
    (∀ fuel, Typ.Union (fuel + 3) "T" Sample.twoHops = some (.ok (some ⟨"T2", 7⟩))) ∧
    (∀ fuel, Typ.Union fuel "T" Sample.twoHops ≠ some (.ok none)) := by
  have h : ∀ fuel, Typ.Union (fuel + 3) "T" Sample.twoHops = some (.ok (some ⟨"T2", 7⟩)) :=
    fun fuel => rfl
  refine ⟨rfl, rfl, rfl, h, ?_⟩
  intro fuel
  match fuel with
  | 0 => intro hc; cases hc
  | 1 => intro hc; cases hc
  | 2 => intro hc; cases hc
  | n + 3 => rw [h n]; intro hc; cases hc

/-! ## The resource test -/

theorem any_name_iff {α : Type} (name : α → Typ) (needle : Typ) (l : List α) :
    (l.any fun a => needle == name a) = true ↔ needle ∈ l.map name := by
  simp only [List.any_eq_true, List.mem_map, beq_iff_eq]
  constructor
  · rintro ⟨a, ha, h⟩; exact ⟨a, ha, h.symm⟩
  · rintro ⟨a, ha, h⟩; exact ⟨a, ha, h.symm⟩

mutual
/-- On a tree whose imports are all bound, `IsResource` decides membership in the
resource names of the tree. -/
theorem XML.IsResource_eq_mem (needle : Typ) :
    ∀ x : XML F E, x.allBound = true →
      x.IsResource needle = .ok (decide (needle ∈ x.resourceNames))
  | .mk _ _ _ _ _ imports _ xids xidunions _ _ _ _ _ _ _ _, hb => by
    have hi := XML.IsResource.imports_eq_mem needle imports (by simpa [XML.allBound] using hb)
    by_cases h1 : needle ∈ xids.map (fun xid => xid.Name)
    · have := (any_name_iff (fun xid : Xid => xid.Name) needle xids).2 h1
      simp only [XML.IsResource, this, XML.resourceNames]
      simp [h1]
    · have h1' : (xids.any fun xid => needle == xid.Name) = false := by
        rw [← Bool.not_eq_true, any_name_iff (fun xid : Xid => xid.Name)]; exact h1
      by_cases h2 : needle ∈ xidunions.map (fun xidunion => xidunion.Name)
      · have := (any_name_iff (fun xid : Xid => xid.Name) needle xidunions).2 h2
        simp only [XML.IsResource, h1', this, XML.resourceNames]
        simp [h2]
      · have h2' : (xidunions.any fun xidunion => needle == xidunion.Name) = false := by
          rw [← Bool.not_eq_true, any_name_iff (fun xid : Xid => xid.Name)]; exact h2
        simp only [XML.IsResource, h1', h2', XML.resourceNames, hi]
        simp only [List.mem_append, h1, h2, false_or, Bool.false_eq_true, if_false]
/-- The same for the loop over the imports. -/
theorem XML.IsResource.imports_eq_mem (needle : Typ) :
    ∀ imps : List (Import F E), Imports.allBound imps = true →
      XML.IsResource.imports needle imps = .ok (decide (needle ∈ Imports.resourceNames imps))
  | [], _ => by simp [XML.IsResource.imports, Imports.resourceNames]
  | .mk _ none :: _, hb => by simp [Imports.allBound] at hb
  | .mk _ (some y) :: rest, hb => by
    have hb' : y.allBound = true ∧ Imports.allBound rest = true := by
      simpa [Imports.allBound] using hb
    have hy := XML.IsResource_eq_mem needle y hb'.1
    have hr := XML.IsResource.imports_eq_mem needle rest hb'.2
    by_cases h : needle ∈ y.resourceNames
    · simp [XML.IsResource.imports, hy, Imports.resourceNames, h]
    · simp [XML.IsResource.imports, hy, Imports.resourceNames, h, hr]
end

mutual
/-- The only failure of `IsResource` is the dereference of an unbound import. -/
theorem XML.IsResource_error (needle : Typ) (e : Failure) :
    ∀ x : XML F E, x.IsResource needle = .error e → e = .nilDeref
  | .mk _ _ _ _ _ imports _ xids xidunions _ _ _ _ _ _ _ _, h => by
    simp only [XML.IsResource] at h
    split at h
    · cases h
    · split at h
      · cases h
      · exact XML.IsResource.imports_error needle e imports h
/-- The same for the loop over the imports. -/
theorem XML.IsResource.imports_error (needle : Typ) (e : Failure) :
    ∀ imps : List (Import F E), XML.IsResource.imports needle imps = .error e → e = .nilDeref
  | [], h => by simp [XML.IsResource.imports] at h
  | .mk _ none :: _, h => by
    simp only [XML.IsResource.imports] at h
    cases h; rfl
  | .mk _ (some y) :: rest, h => by
    simp only [XML.IsResource.imports] at h
    cases hy : XML.IsResource needle y with
    | error e2 =>
      rw [hy] at h
      simp only [] at h
      cases h
      exact XML.IsResource_error needle e y hy
    | ok b =>
      rw [hy] at h
      cases b with
      | true => cases h
      | false => exact XML.IsResource.imports_error needle e rest h
end

/-! ## The steps of `Type.Size` -/

theorem Typ.Size.scan_eq (typ : Typ) (l : List Xgbgen.TypeDef) :
    Typ.TypeDef.scan typ l = (Typ.Size.scan typ l).map fun old => (old, true) := by
  induction l with
  | nil => rfl
  | cons typedef rest ih =>
    by_cases h : (typ == typedef.New) = true
    · simp [Typ.TypeDef.scan, Typ.Size.scan, h]
    · simp only [Bool.not_eq_true] at h
      simp [Typ.TypeDef.scan, Typ.Size.scan, h, ih]

theorem Typ.Size.imports_eq (typ : Typ) (imps : List (Import F E)) :
    Typ.TypeDef.imports typ imps =
      match Typ.Size.imports typ imps with
      | .error e => .error e
      | .ok (some old) => .ok (old, true)
      | .ok none => .ok ("", false) := by
  induction imps with
  | nil => rfl
  | cons imp rest ih =>
    cases hx : imp.xml with
    | none => simp [Typ.TypeDef.imports, Typ.Size.imports, hx]
    | some y =>
      simp only [Typ.TypeDef.imports, Typ.Size.imports, hx, Typ.Size.scan_eq]
      cases hs : Typ.Size.scan typ y.TypeDefs with
      | some old => simp
      | none => simpa using ih

/-- One call of `Type.Size`, with its inlined typedef search read as `Type.TypeDef`. -/
theorem Typ.Size_step (BaseTypeSizes : String → Option Nat) (fuel : Nat) (typ : Typ)
    (c : Context F E) :
    Typ.Size BaseTypeSizes (fuel + 1) typ c =
      match BaseTypeSizes typ with
      | some size => some (.ok size)
      | none =>
        match c.xml.IsResource typ with
        | .error e => some (.error e)
        | .ok true => some (.ok ((BaseTypeSizes "Id").getD 0))
        | .ok false =>
          match Typ.TypeDef typ c with
          | .error e => some (.error e)
          | .ok (old, true) => Typ.Size BaseTypeSizes fuel old c
          | .ok (_, false) => some (.error (.noBaseSize typ)) := by
  simp only [Typ.Size, Typ.TypeDef, Typ.Size.scan_eq, Typ.Size.imports_eq]
  cases BaseTypeSizes typ with
  | some size => rfl
  | none =>
    cases c.xml.IsResource typ with
    | error e => rfl
    | ok b =>
      cases b with
      | true => rfl
      | false =>
        cases Typ.Size.scan typ c.xml.TypeDefs with
        | some old => rfl
        | none =>
          cases Typ.Size.imports typ c.xml.Imports with
          | error e => rfl
          | ok o =>
            cases o with
            | some old => rfl
            | none => rfl

theorem Typ.Size_of_base (BaseTypeSizes : String → Option Nat) (fuel : Nat) (typ : Typ)
    (c : Context F E) (size : Nat) (h : BaseTypeSizes typ = some size) :
    Typ.Size BaseTypeSizes (fuel + 1) typ c = some (.ok size) := by
  simp only [Typ.Size, h]

theorem Typ.Size_of_resource (BaseTypeSizes : String → Option Nat) (fuel : Nat) (typ : Typ)
    (c : Context F E) (h : BaseTypeSizes typ = none) (hr : c.xml.IsResource typ = .ok true) :
    Typ.Size BaseTypeSizes (fuel + 1) typ c = some (.ok ((BaseTypeSizes "Id").getD 0)) := by
  simp only [Typ.Size, h, hr]

theorem Typ.Size_of_hop (BaseTypeSizes : String → Option Nat) (fuel : Nat) (typ old : Typ)
    (c : Context F E) (h : c.sizeHop BaseTypeSizes typ old) :
    Typ.Size BaseTypeSizes (fuel + 1) typ c = Typ.Size BaseTypeSizes fuel old c := by
  rw [Typ.Size_step]
  simp only [h.1, h.2.1, h.2.2]

theorem Typ.Size_of_nothing (BaseTypeSizes : String → Option Nat) (fuel : Nat) (typ : Typ)
    (c : Context F E) (h : BaseTypeSizes typ = none) (hr : c.xml.IsResource typ = .ok false)
    (ht : Typ.TypeDef typ c = .ok ("", false)) :
    Typ.Size BaseTypeSizes (fuel + 1) typ c = some (.error (.noBaseSize typ)) := by
  rw [Typ.Size_step]
  simp only [h, hr, ht]

/-- C3, as the code behaves: `Type.Size` follows both typedef hops `T -> T1 -> T2` (taken
when `T` and `T1` are neither keys of `BaseTypeSizes` nor resources) and returns what
`Size(T2)` returns; when `T2` is declared only as a union (no key of `BaseTypeSizes`, no
resource, no typedef new name) that is the "Could not find base size" failure for `T2`. -/
theorem C3_size_follows_both_hops (BaseTypeSizes : String → Option Nat) (c : Context F E)
    (T T1 T2 : Typ) (h1 : c.sizeHop BaseTypeSizes T T1) (h2 : c.sizeHop BaseTypeSizes T1 T2) :
    (∀ fuel, Typ.Size BaseTypeSizes (fuel + 2) T c = Typ.Size BaseTypeSizes fuel T2 c) ∧
    (BaseTypeSizes T2 = none → c.xml.IsResource T2 = .ok false →
      Typ.TypeDef T2 c = .ok ("", false) →
      ∀ fuel, Typ.Size BaseTypeSizes (fuel + 3) T c = some (.error (.noBaseSize T2))) := by
  have hop : ∀ fuel,
      Typ.Size BaseTypeSizes (fuel + 2) T c = Typ.Size BaseTypeSizes fuel T2 c := fun fuel => by
    rw [Typ.Size_of_hop BaseTypeSizes (fuel + 1) T T1 c h1,
      Typ.Size_of_hop BaseTypeSizes fuel T1 T2 c h2]
  refine ⟨hop, ?_⟩
  intro hb hr ht fuel
  rw [hop (fuel + 1), Typ.Size_of_nothing BaseTypeSizes fuel T2 c hb hr ht]

/-- C3 on the sample `T -> T1 -> T2`: both hops are taken and the call fails at `T2`. -/
theorem C3_size_follows_both_hops_witness :
    Sample.twoHops.sizeHop Sample.sizes "T" "T1" ∧
    Sample.twoHops.sizeHop Sample.sizes "T1" "T2" ∧
    Typ.Size Sample.sizes 3 "T" Sample.twoHops = some (.error (.noBaseSize "T2")) :=
  ⟨⟨rfl, rfl, rfl⟩, ⟨rfl, rfl, rfl⟩,
    (C3_size_follows_both_hops Sample.sizes Sample.twoHops "T" "T1" "T2"
      ⟨rfl, rfl, rfl⟩ ⟨rfl, rfl, rfl⟩).2 rfl rfl rfl 0⟩

/-- C3 as stated fails: in the sample, `T` is the new name of a typedef to `T1`, `T1` of
a typedef to `T2`, and `T2` is declared only as a union, yet `Size("T")` returns no size at
any recursion depth: from depth 3 on it fails with "Could not find base size" for `T2`. -/
theorem C3_size_succeeds_counterexample :
    Sample.twoHops.xml.TypeDefs = [⟨"T1", "T"⟩, ⟨"T2", "T1"⟩] ∧
    Sample.twoHops.xml.Unions.map (fun union => union.Name) = ["T2"] ∧
    Sample.twoHops.xml.Imports = [] ∧ Sample.twoHops.xml.Xids = [] ∧
    Sample.twoHops.xml.XidUnions = [] ∧
    (∀ fuel, Typ.Size Sample.sizes (fuel + 3) "T" Sample.twoHops =
      some (.error (.noBaseSize "T2"))) ∧
    (∀ fuel size, Typ.Size Sample.sizes fuel "T" Sample.twoHops ≠ some (.ok size)) := by
  have h : ∀ fuel, Typ.Size Sample.sizes (fuel + 3) "T" Sample.twoHops =
      some (.error (.noBaseSize "T2")) := fun fuel => rfl
  refine ⟨rfl, rfl, rfl, rfl, rfl, h, ?_⟩
  intro fuel size
  match fuel with
  | 0 => intro hc; cases hc
  | 1 => intro hc; cases hc
  | 2 => intro hc; cases hc
  | n + 3 => rw [h n]; intro hc; cases hc

/-! ## Sizes of resources, aliases and base types -/

/-- C4, as the code behaves: on a tree whose imports are all bound, a name `R` declared as
an `Xid` or `XidUnion` in the document or below it that is not a key of `BaseTypeSizes`
has size `BaseTypeSizes["Id"]`, and so has every `T` that reaches `R` through typedef
hops over names that are not keys of `BaseTypeSizes`, whatever the number of hops. -/
theorem C4_resource_width (BaseTypeSizes : String → Option Nat) (c : Context F E)
    (T R : Typ) (hbound : c.xml.allBound = true) (hR : R ∈ c.xml.resourceNames)
    (hbase : BaseTypeSizes R = none)
    (hchain : Relation.ReflTransGen (c.nonBaseHop BaseTypeSizes) T R) :
    c.xml.IsResource R = .ok true ∧
    (∀ fuel, Typ.Size BaseTypeSizes (fuel + 1) R c =
      some (.ok ((BaseTypeSizes "Id").getD 0))) ∧
    ∃ n, ∀ fuel, n ≤ fuel →
      Typ.Size BaseTypeSizes fuel T c = some (.ok ((BaseTypeSizes "Id").getD 0)) := by
  have hres : c.xml.IsResource R = .ok true := by
    rw [XML.IsResource_eq_mem R c.xml hbound]; simp [hR]
  refine ⟨hres, fun fuel => Typ.Size_of_resource BaseTypeSizes fuel R c hbase hres, ?_⟩
  induction hchain using Relation.ReflTransGen.head_induction_on with
  | refl =>
    refine ⟨1, fun fuel hf => ?_⟩
    obtain ⟨k, rfl⟩ : ∃ k, fuel = k + 1 := ⟨fuel - 1, by omega⟩
    exact Typ.Size_of_resource BaseTypeSizes k R c hbase hres
  | @head a b hhop _ ih =>
    obtain ⟨n, hn⟩ := ih
    refine ⟨n + 1, fun fuel hf => ?_⟩
    obtain ⟨k, rfl⟩ : ∃ k, fuel = k + 1 := ⟨fuel - 1, by omega⟩
    by_cases ha : a ∈ c.xml.resourceNames
    · exact Typ.Size_of_resource BaseTypeSizes k a c hhop.1
        (by rw [XML.IsResource_eq_mem a c.xml hbound]; simp [ha])
    · rw [Typ.Size_of_hop BaseTypeSizes k a b c
        ⟨hhop.1, by rw [XML.IsResource_eq_mem a c.xml hbound]; simp [ha], hhop.2⟩]
      exact hn k (by omega)

/-- C4 on the sample `W2 -> W1 -> WINDOW`, where the resource `WINDOW` is declared in
an imported document: `Size("W2")` is the width of `Id` from depth 3 on. -/
theorem C4_resource_width_witness :
    Sample.resourceChain.xml.allBound = true ∧
    "WINDOW" ∈ Sample.resourceChain.xml.resourceNames ∧
    Sample.sizes "WINDOW" = none ∧
    Relation.ReflTransGen (Sample.resourceChain.nonBaseHop Sample.sizes) "W2" "WINDOW" ∧
    (∃ n, ∀ fuel, n ≤ fuel →
      Typ.Size Sample.sizes fuel "W2" Sample.resourceChain = some (.ok 4)) ∧
    Typ.Size Sample.sizes 3 "W2" Sample.resourceChain = some (.ok 4) :=
  have hchain : Relation.ReflTransGen (Sample.resourceChain.nonBaseHop Sample.sizes)
      "W2" "WINDOW" :=
    Relation.ReflTransGen.head (b := "W1") ⟨rfl, rfl⟩
      (Relation.ReflTransGen.head (b := "WINDOW") ⟨rfl, rfl⟩ Relation.ReflTransGen.refl)
  ⟨rfl, by decide, rfl, hchain,
    (C4_resource_width Sample.sizes Sample.resourceChain "W2" "WINDOW" rfl (by decide) rfl
      hchain).2.2, rfl⟩

/-- C4 as stated fails: the sample declares the resource `CARD8`, a key of the size
table, and `Size("CARD8")` is the table's 1, not the width 4 of `Id`. -/
theorem C4_resource_width_counterexample :
    Sample.shadowed.xml.Xids = [⟨"CARD8"⟩] ∧
    Sample.shadowed.xml.IsResource "CARD8" = .ok true ∧
    (Sample.sizes "Id").getD 0 = 4 ∧
    (∀ fuel, Typ.Size Sample.sizes (fuel + 1) "CARD8" Sample.shadowed = some (.ok 1)) ∧
    (∀ fuel, Typ.Size Sample.sizes fuel "CARD8" Sample.shadowed ≠
      some (.ok ((Sample.sizes "Id").getD 0))) := by
  have h : ∀ fuel, Typ.Size Sample.sizes (fuel + 1) "CARD8" Sample.shadowed = some (.ok 1) :=
    fun fuel => rfl
  refine ⟨rfl, rfl, rfl, h, ?_⟩
  intro fuel
  match fuel with
  | 0 => intro hc; cases hc
  | n + 1 => rw [h n]; intro hc; cases hc

/-- C5, as the code behaves: if `T2` and `T1` are neither keys of `BaseTypeSizes` nor
resources, the first typedef of `T2` has old name `T1`, and the first typedef of `T1` has
old name `P`, a base type with `BaseTypeSizes[P] = w`, then `Size(T2) = w`. -/
theorem C5_alias_chain_size (BaseTypeSizes : String → Option Nat) (c : Context F E)
    (T2 T1 P : Typ) (w : Nat) (h2 : c.sizeHop BaseTypeSizes T2 T1)
    (h1 : c.sizeHop BaseTypeSizes T1 P) (hP : BaseTypeSizes P = some w) (fuel : Nat) :
    Typ.Size BaseTypeSizes (fuel + 3) T2 c = some (.ok w) := by
  rw [Typ.Size_of_hop BaseTypeSizes (fuel + 2) T2 T1 c h2,
    Typ.Size_of_hop BaseTypeSizes (fuel + 1) T1 P c h1,
    Typ.Size_of_base BaseTypeSizes fuel P c w hP]

/-- C5 on the sample `T2 -> T1 -> CARD8`: the size is that of `CARD8`. -/
theorem C5_alias_chain_size_witness :
    Sample.aliasChain.sizeHop Sample.sizes "T2" "T1" ∧
    Sample.aliasChain.sizeHop Sample.sizes "T1" "CARD8" ∧
    Sample.sizes "CARD8" = some 1 ∧
    Typ.Size Sample.sizes 3 "T2" Sample.aliasChain = some (.ok 1) :=
  ⟨⟨rfl, rfl, rfl⟩, ⟨rfl, rfl, rfl⟩, rfl,
    C5_alias_chain_size Sample.sizes Sample.aliasChain "T2" "T1" "CARD8" 1
      ⟨rfl, rfl, rfl⟩ ⟨rfl, rfl, rfl⟩ rfl 0⟩

/-- C5 as stated fails when a typedef's new name is itself a key of the size table: with
the typedefs `CARD16 -> T1 -> CARD8` and `BaseTypeSizes["CARD8"] = 1`, `Size("CARD16")` is
the table's 2, never 1. It fails as well when `T1` is also a resource: with
`T2 -> T1 -> CARD8` and the resource `T1`, `Size("T2")` is the width 4 of `Id`. -/
theorem C5_alias_chain_size_counterexample :
    Sample.aliasOfBase.xml.TypeDefs = [⟨"T1", "CARD16"⟩, ⟨"CARD8", "T1"⟩] ∧
    Sample.sizes "CARD8" = some 1 ∧
    (∀ fuel, Typ.Size Sample.sizes (fuel + 1) "CARD16" Sample.aliasOfBase = some (.ok 2)) ∧
    (∀ fuel, Typ.Size Sample.sizes fuel "CARD16" Sample.aliasOfBase ≠ some (.ok 1)) ∧
    Sample.aliasOfResource.xml.TypeDefs = [⟨"T1", "T2"⟩, ⟨"CARD8", "T1"⟩] ∧
    Sample.aliasOfResource.xml.Xids = [⟨"T1"⟩] ∧
    (∀ fuel, Typ.Size Sample.sizes (fuel + 2) "T2" Sample.aliasOfResource = some (.ok 4)) := by
  have h : ∀ fuel,
      Typ.Size Sample.sizes (fuel + 1) "CARD16" Sample.aliasOfBase = some (.ok 2) :=
    fun fuel => rfl
  refine ⟨rfl, rfl, h, ?_, rfl, rfl, fun fuel => rfl⟩
  intro fuel
  match fuel with
  | 0 => intro hc; cases hc
  | n + 1 => rw [h n]; intro hc; cases hc

/-- C6: for a key `T` of `BaseTypeSizes`, `Size(T)` is `BaseTypeSizes[T]` in every
document: the table is consulted first, so neither a resource nor a typedef named `T`
changes the result. -/
theorem C6_base_type_first (BaseTypeSizes : String → Option Nat) (c : Context F E)
    (T : Typ) (size : Nat) (h : BaseTypeSizes T = some size) (fuel : Nat) :
    Typ.Size BaseTypeSizes (fuel + 1) T c = some (.ok size) := by
  simp only [Typ.Size, h]

/-- C6 on a document that declares both a resource and a typedef named `CARD8`. -/
theorem C6_base_type_first_witness :
    Sample.sizes "CARD8" = some 1 ∧
    Sample.shadowed.xml.IsResource "CARD8" = .ok true ∧
    Typ.TypeDef "CARD8" Sample.shadowed = .ok ("CARD16", true) ∧
    Typ.Size Sample.sizes 1 "CARD8" Sample.shadowed = some (.ok 1) :=
  ⟨rfl, rfl, rfl, C6_base_type_first Sample.sizes Sample.shadowed "CARD8" 1 rfl 0⟩

/-! ## When `Type.Size` fails -/

mutual
/-- A negative answer of `IsResource` has visited, hence found bound, every import. -/
theorem XML.IsResource_false_bound (needle : Typ) :
    ∀ x : XML F E, x.IsResource needle = .ok false → x.allBound = true
  | .mk _ _ _ _ _ imports _ xids xidunions _ _ _ _ _ _ _ _, h => by
    simp only [XML.IsResource] at h
    split at h
    · cases h
    · split at h
      · cases h
      · simpa [XML.allBound] using XML.IsResource.imports_false_bound needle imports h
/-- The same for the loop over the imports. -/
theorem XML.IsResource.imports_false_bound (needle : Typ) :
    ∀ imps : List (Import F E),
      XML.IsResource.imports needle imps = .ok false → Imports.allBound imps = true
  | [], _ => rfl
  | .mk _ none :: _, h => by
    simp only [XML.IsResource.imports] at h
    cases h
  | .mk _ (some y) :: rest, h => by
    simp only [XML.IsResource.imports] at h
    cases hy : XML.IsResource needle y with
    | error e2 =>
      rw [hy] at h
      cases h
    | ok b =>
      rw [hy] at h
      cases b with
      | true => cases h
      | false =>
        have h1 := XML.IsResource_false_bound needle y hy
        have h2 := XML.IsResource.imports_false_bound needle rest h
        simp [Imports.allBound, h1, h2]
end

theorem Imports.allBound_isSome :
    ∀ imps : List (Import F E), Imports.allBound imps = true →
      ∀ imp ∈ imps, imp.xml.isSome = true
  | [], _ => by simp
  | .mk _ none :: _, h => by simp [Imports.allBound] at h
  | .mk n (some y) :: rest, h => by
    have h2 : y.allBound = true ∧ Imports.allBound rest = true := by
      simpa [Imports.allBound] using h
    intro imp himp
    rcases List.mem_cons.1 himp with rfl | himp
    · rfl
    · exact Imports.allBound_isSome rest h2.2 imp himp

theorem Context.directBound_of_allBound (c : Context F E) (h : c.xml.allBound = true) :
    c.directBound = true := by
  obtain ⟨x⟩ := c
  cases x
  simp only [XML.allBound] at h
  simpa [Context.directBound, XML.Imports, List.all_eq_true] using
    Imports.allBound_isSome _ h

/-- With the direct imports bound, `Type.TypeDef` reports "not found" exactly for the
names that are the new name of no typedef of the document or of a direct import. -/
theorem Typ.TypeDef_none_iff (typ : Typ) (c : Context F E) (hb : c.directBound = true) :
    Typ.TypeDef typ c = .ok ("", false) ↔ ∀ td ∈ c.visibleTypeDefs, td.New ≠ typ := by
  rw [Typ.TypeDef_eq_find typ c hb]
  cases hf : c.visibleTypeDefs.find? (fun typedef => typ == typedef.New) with
  | none =>
    simp only [true_iff]
    intro td htd heq
    have := List.find?_eq_none.1 hf td htd
    simp [heq] at this
  | some td =>
    have hm := List.mem_of_find?_eq_some hf
    have hp := List.find?_some hf
    constructor
    · intro h; simp at h
    · intro h
      exact absurd (by simpa using hp : typ = td.New).symm (h td hm)

/-- A walk of `Type.Size` that ends at a name with no case to apply fails there, at every
sufficient recursion depth. -/
theorem Typ.Size_fails_of_walk (BaseTypeSizes : String → Option Nat) (c : Context F E)
    (T N : Typ) (hchain : Relation.ReflTransGen (c.sizeHop BaseTypeSizes) T N)
    (hb : BaseTypeSizes N = none) (hr : c.xml.IsResource N = .ok false)
    (ht : Typ.TypeDef N c = .ok ("", false)) :
    ∃ n, ∀ fuel, n ≤ fuel →
      Typ.Size BaseTypeSizes fuel T c = some (.error (.noBaseSize N)) := by
  induction hchain using Relation.ReflTransGen.head_induction_on with
  | refl =>
    refine ⟨1, fun fuel hf => ?_⟩
    obtain ⟨k, rfl⟩ : ∃ k, fuel = k + 1 := ⟨fuel - 1, by omega⟩
    exact Typ.Size_of_nothing BaseTypeSizes k N c hb hr ht
  | @head a b hhop _ ih =>
    obtain ⟨n, hn⟩ := ih
    refine ⟨n + 1, fun fuel hf => ?_⟩
    obtain ⟨k, rfl⟩ : ∃ k, fuel = k + 1 := ⟨fuel - 1, by omega⟩
    rw [Typ.Size_of_hop BaseTypeSizes k a b c hhop]
    exact hn k (by omega)

/-- A "Could not find base size" failure comes from a walk of `Type.Size` to the name it
reports. -/
theorem Typ.Size_walk_of_fails (BaseTypeSizes : String → Option Nat) (c : Context F E)
    (N : Typ) :
    ∀ fuel T, Typ.Size BaseTypeSizes fuel T c = some (.error (.noBaseSize N)) →
      Relation.ReflTransGen (c.sizeHop BaseTypeSizes) T N ∧ BaseTypeSizes N = none ∧
        c.xml.IsResource N = .ok false ∧ Typ.TypeDef N c = .ok ("", false) := by
  intro fuel
  induction fuel with
  | zero => intro T h; cases h
  | succ fuel ih =>
    intro T h
    rw [Typ.Size_step] at h
    cases hB : BaseTypeSizes T with
    | some size => rw [hB] at h; cases h
    | none =>
      cases hR : c.xml.IsResource T with
      | error e =>
        rw [hB, hR] at h
        have := XML.IsResource_error T e c.xml hR
        subst this
        cases h
      | ok b =>
        cases b with
        | true => rw [hB, hR] at h; cases h
        | false =>
          rcases Typ.TypeDef_cases T c with hT | ⟨old, hT⟩ | ⟨hT, _⟩
          · rw [hB, hR, hT] at h; cases h
          · rw [hB, hR, hT] at h
            obtain ⟨h1, h2⟩ := ih old h
            exact ⟨Relation.ReflTransGen.head ⟨hB, hR, hT⟩ h1, h2⟩
          · rw [hB, hR, hT] at h
            simp only [Option.some.injEq, Except.error.injEq, Failure.noBaseSize.injEq] at h
            subst h
            exact ⟨Relation.ReflTransGen.refl, hB, hR, hT⟩

/-- C7, as the code behaves: `Size(T)` fails with "Could not find base size of type N"
exactly when the hops that `Size` takes from `T` end at `N`, where a hop is taken only
from a name that is no key of `BaseTypeSizes` and no resource per `IsResource`, to the old
name of its first matching typedef (the document's own before those of its direct imports),
and `N` is no key of `BaseTypeSizes`, no resource per `IsResource`, and not the new name
of a typedef of the document or of a direct import; the failure then occurs at
every sufficient recursion depth. In particular a name that is no key and no resource and
whose only typedef sits in an import of an import fails. -/
theorem C7_size_failure (BaseTypeSizes : String → Option Nat) (c : Context F E) (T N : Typ) :
    ((∃ fuel, Typ.Size BaseTypeSizes fuel T c = some (.error (.noBaseSize N))) ↔
      (Relation.ReflTransGen (c.sizeHop BaseTypeSizes) T N ∧ BaseTypeSizes N = none ∧
        c.xml.IsResource N = .ok false ∧ ∀ td ∈ c.visibleTypeDefs, td.New ≠ N)) ∧
    ((∃ fuel, Typ.Size BaseTypeSizes fuel T c = some (.error (.noBaseSize N))) →
      ∃ n, ∀ fuel, n ≤ fuel →
        Typ.Size BaseTypeSizes fuel T c = some (.error (.noBaseSize N))) ∧
    (BaseTypeSizes N = none → c.xml.IsResource N = .ok false →
      (∀ td ∈ c.visibleTypeDefs, td.New ≠ N) →
      ∀ fuel, Typ.Size BaseTypeSizes (fuel + 1) N c = some (.error (.noBaseSize N))) ∧
    ((∃ imp mid deep td, imp ∈ Sample.nested.xml.Imports ∧ imp.xml = some mid ∧
        deep ∈ mid.Imports ∧ (deep.xml.map fun y => y.TypeDefs) = some [td] ∧
        td.New = "Deep") ∧
      ∀ fuel, Typ.Size Sample.sizes (fuel + 1) "Deep" Sample.nested =
        some (.error (.noBaseSize "Deep"))) := by
  have hnone : c.xml.IsResource N = .ok false →
      (Typ.TypeDef N c = .ok ("", false) ↔ ∀ td ∈ c.visibleTypeDefs, td.New ≠ N) :=
    fun hr => Typ.TypeDef_none_iff N c
      (Context.directBound_of_allBound c (XML.IsResource_false_bound N c.xml hr))
  have hfwd : (∃ fuel, Typ.Size BaseTypeSizes fuel T c = some (.error (.noBaseSize N))) →
      (Relation.ReflTransGen (c.sizeHop BaseTypeSizes) T N ∧ BaseTypeSizes N = none ∧
        c.xml.IsResource N = .ok false ∧ ∀ td ∈ c.visibleTypeDefs, td.New ≠ N) := by
    rintro ⟨fuel, h⟩
    obtain ⟨h1, h2, h3, h4⟩ := Typ.Size_walk_of_fails BaseTypeSizes c N fuel T h
    exact ⟨h1, h2, h3, (hnone h3).1 h4⟩
  have hbwd : (Relation.ReflTransGen (c.sizeHop BaseTypeSizes) T N ∧ BaseTypeSizes N = none ∧
        c.xml.IsResource N = .ok false ∧ ∀ td ∈ c.visibleTypeDefs, td.New ≠ N) →
      ∃ n, ∀ fuel, n ≤ fuel →
        Typ.Size BaseTypeSizes fuel T c = some (.error (.noBaseSize N)) := by
    rintro ⟨h1, h2, h3, h4⟩
    exact Typ.Size_fails_of_walk BaseTypeSizes c T N h1 h2 h3 ((hnone h3).2 h4)
  refine ⟨⟨hfwd, fun h => ?_⟩, fun h => hbwd (hfwd h), ?_, ?_, fun fuel => rfl⟩
  · obtain ⟨n, hn⟩ := hbwd h
    exact ⟨n, hn n (Nat.le_refl n)⟩
  · intro h2 h3 h4 fuel
    exact Typ.Size_of_nothing BaseTypeSizes fuel N c h2 h3 ((hnone h3).2 h4)
  · exact ⟨.mk "mid" (some (Sample.doc
      [.mk "deep" (some (Sample.doc [] [] [] [⟨"CARD8", "Deep"⟩] []))] [] [] [] [])),
      Sample.doc [.mk "deep" (some (Sample.doc [] [] [] [⟨"CARD8", "Deep"⟩] []))] [] [] [] [],
      .mk "deep" (some (Sample.doc [] [] [] [⟨"CARD8", "Deep"⟩] [])), ⟨"CARD8", "Deep"⟩,
      List.mem_singleton.2 rfl, rfl, List.mem_singleton.2 rfl, rfl, rfl⟩

/-- C7 on the sample `T -> T1 -> T2`: the walk of `Size` from `T` ends at `T2`, which is
no base type, no resource and no typedef new name, and `Size("T")` fails for `T2`. -/
theorem C7_size_failure_witness :
    (Relation.ReflTransGen (Sample.twoHops.sizeHop Sample.sizes) "T" "T2" ∧
      Sample.sizes "T2" = none ∧ Sample.twoHops.xml.IsResource "T2" = .ok false ∧
      ∀ td ∈ Sample.twoHops.visibleTypeDefs, td.New ≠ "T2") ∧
    (∃ fuel, Typ.Size Sample.sizes fuel "T" Sample.twoHops =
      some (.error (.noBaseSize "T2"))) :=
  have hwalk : Relation.ReflTransGen (Sample.twoHops.sizeHop Sample.sizes) "T" "T2" ∧
      Sample.sizes "T2" = none ∧ Sample.twoHops.xml.IsResource "T2" = .ok false ∧
      ∀ td ∈ Sample.twoHops.visibleTypeDefs, td.New ≠ "T2" :=
    ⟨Relation.ReflTransGen.head (b := "T1") ⟨rfl, rfl, rfl⟩
      (Relation.ReflTransGen.head (b := "T2") ⟨rfl, rfl, rfl⟩ Relation.ReflTransGen.refl),
      rfl, rfl, by decide⟩
  ⟨hwalk, (C7_size_failure Sample.sizes Sample.twoHops "T" "T2").1.2 hwalk⟩

/-- C7 as stated fails: with the single typedef `CARD16 -> X`, the typedef hops from
`CARD16` end at `X`, which is no key of the size table, no resource and not the new name
of a typedef, yet `Size("CARD16")` does not fail: the table is consulted before any
typedef, and the result is 2 at every recursion depth from 1 on. -/
theorem C7_typedef_hops_counterexample :
    Sample.baseAlias.xml.TypeDefs = [⟨"X", "CARD16"⟩] ∧
    Sample.baseAlias.xml.Imports = [] ∧
    Relation.ReflTransGen Sample.baseAlias.aliasHop "CARD16" "X" ∧
    Sample.sizes "X" = none ∧ Sample.baseAlias.xml.IsResource "X" = .ok false ∧
    (∀ td ∈ Sample.baseAlias.visibleTypeDefs, td.New ≠ "X") ∧
    Typ.TypeDef "X" Sample.baseAlias = .ok ("", false) ∧
    (∀ fuel, Typ.Size Sample.sizes (fuel + 1) "CARD16" Sample.baseAlias = some (.ok 2)) ∧
    (∀ fuel N, Typ.Size Sample.sizes fuel "CARD16" Sample.baseAlias ≠
      some (.error (.noBaseSize N))) := by
  have hhop : Sample.baseAlias.aliasHop "CARD16" "X" := rfl
  have h : ∀ fuel,
      Typ.Size Sample.sizes (fuel + 1) "CARD16" Sample.baseAlias = some (.ok 2) :=
    fun fuel => rfl
  refine ⟨rfl, rfl, Relation.ReflTransGen.single hhop, rfl, rfl, by decide, rfl, h, ?_⟩
  intro fuel N
  match fuel with
  | 0 => intro hc; cases hc
  | n + 1 => rw [h n]; intro hc; cases hc

/-! ## `HasType` -/

/-- C8: `HasType(T)` holds exactly when `T` is the name of an `Enum`, `Xid`, `XidUnion`,
`EventCopy`, `ErrorCopy`, `Struct`, `Union`, `Event` or `Error`, or the new name of a
`TypeDef`, of the document itself; the imports and the requests of the document play no
part, so a name declared only there yields false. -/
theorem C8_has_type (T : Typ) :
    (∀ x : XML F E, x.HasType T = true ↔
      (T ∈ x.Enums.map (fun enum => enum.Name) ∨
        T ∈ x.Xids.map (fun xid => xid.Name) ∨
        T ∈ x.XidUnions.map (fun xidunion => xidunion.Name) ∨
        T ∈ x.TypeDefs.map (fun typedef => typedef.New) ∨
        T ∈ x.EventCopies.map (fun evcopy => evcopy.Name) ∨
        T ∈ x.ErrorCopies.map (fun errcopy => errcopy.Name) ∨
        T ∈ x.Structs.map (fun strct => strct.Name) ∨
        T ∈ x.Unions.map (fun union => union.Name) ∨
        T ∈ x.Events.map (fun ev => ev.Name) ∨
        T ∈ x.Errors.map (fun err => err.Name))) ∧
    (∀ (h1 h2 h3 h4 h5 : String) (imports imports2 : List (Import F E))
      (enums : List (Enum E)) (xids xidunions : List Xid) (typedefs : List Xgbgen.TypeDef)
      (evcopies : List EventCopy) (errcopies : List ErrorCopy) (structs : List (Struct F))
      (unions : List (Xgbgen.Union F)) (requests requests2 : List (Request F))
      (events : List (Event F)) (errors : List (Error F)),
      XML.HasType T (.mk h1 h2 h3 h4 h5 imports enums xids xidunions typedefs evcopies
          errcopies structs unions requests events errors) =
        XML.HasType T (.mk h1 h2 h3 h4 h5 imports2 enums xids xidunions typedefs evcopies
          errcopies structs unions requests2 events errors)) ∧
    (∀ (h1 h2 h3 h4 h5 : String) (imports : List (Import F E))
      (requests : List (Request F)),
      XML.HasType T (.mk h1 h2 h3 h4 h5 imports [] [] [] [] [] [] [] [] requests [] []) =
        false) := by
  refine ⟨?_, ?_, ?_⟩
  · intro x
    have e1 := any_name_iff (fun enum : Enum E => enum.Name) T x.Enums
    have e2 := any_name_iff (fun xid : Xid => xid.Name) T x.Xids
    have e3 := any_name_iff (fun xid : Xid => xid.Name) T x.XidUnions
    have e4 := any_name_iff (fun typedef : Xgbgen.TypeDef => typedef.New) T x.TypeDefs
    have e5 := any_name_iff (fun evcopy : EventCopy => evcopy.Name) T x.EventCopies
    have e6 := any_name_iff (fun errcopy : ErrorCopy => errcopy.Name) T x.ErrorCopies
    have e7 := any_name_iff (fun strct : Struct F => strct.Name) T x.Structs
    have e8 := any_name_iff (fun union : Xgbgen.Union F => union.Name) T x.Unions
    have e9 := any_name_iff (fun ev : Event F => ev.Name) T x.Events
    have e10 := any_name_iff (fun err : Error F => err.Name) T x.Errors
    have hite : ∀ (p : Prop) [Decidable p] (r : Bool),
        (if p then true else r) = true ↔ (p ∨ r = true) := by
      intro p _ r
      by_cases hp : p <;> simp [hp]
    simp only [XML.HasType, hite, e1, e2, e3, e4, e5, e6, e7, e8, e9, e10,
      Bool.false_eq_true, or_false]
  · intros; rfl
  · intros; rfl

/-! ## `IsResource` and `TypeDef` against their descriptions -/

/-- C9: on a tree whose imports are all bound, `IsResource(T)` is true exactly when `T` is
the name of an `Xid` or `XidUnion` of the document or of a document reachable through its
bound imports at any depth, and false otherwise; the typedefs are never consulted, so the
new name of a typedef is a resource only if it is declared as one, whatever its old name. -/
theorem C9_is_resource (x : XML F E) (T : Typ) (hb : x.allBound = true) :
    (x.IsResource T = .ok true ↔ T ∈ x.resourceNames) ∧
    (x.IsResource T = .ok false ↔ T ∉ x.resourceNames) ∧
    (∀ td ∈ x.TypeDefs, td.New ∉ x.resourceNames → x.IsResource td.New = .ok false) ∧
    (∀ (h1 h2 h3 h4 h5 : String) (imports : List (Import F E))
      (enums : List (Enum E)) (xids xidunions : List Xid)
      (typedefs typedefs2 : List Xgbgen.TypeDef)
      (evcopies : List EventCopy) (errcopies : List ErrorCopy) (structs : List (Struct F))
      (unions : List (Xgbgen.Union F)) (requests : List (Request F))
      (events : List (Event F)) (errors : List (Error F)),
      XML.IsResource T (.mk h1 h2 h3 h4 h5 imports enums xids xidunions typedefs evcopies
          errcopies structs unions requests events errors) =
        XML.IsResource T (.mk h1 h2 h3 h4 h5 imports enums xids xidunions typedefs2 evcopies
          errcopies structs unions requests events errors)) := by
  have h := XML.IsResource_eq_mem T x hb
  refine ⟨?_, ?_, ?_, ?_⟩
  · rw [h]; simp
  · rw [h]; simp
  · intro td _ hn
    rw [XML.IsResource_eq_mem td.New x hb]; simp [hn]
  · intros; simp only [XML.IsResource]

/-- C9 on the sample importing the resource `WINDOW`: `WINDOW` is a resource, its alias
`W1` is not. -/
theorem C9_is_resource_witness :
    Sample.resourceChain.xml.allBound = true ∧
    Sample.resourceChain.xml.resourceNames = ["WINDOW"] ∧
    Typ.TypeDef "W1" Sample.resourceChain = .ok ("WINDOW", true) ∧
    Sample.resourceChain.xml.IsResource "WINDOW" = .ok true ∧
    Sample.resourceChain.xml.IsResource "W1" = .ok false :=
  ⟨rfl, rfl, rfl,
    (C9_is_resource Sample.resourceChain.xml "WINDOW" rfl).1.2 (by decide),
    (C9_is_resource Sample.resourceChain.xml "W1" rfl).2.1.2 (by decide)⟩

theorem Typ.TypeDef.imports_congr (typ : Typ) :
    ∀ imps imps2 : List (Import F E),
      imps.map (fun imp => imp.xml.map fun y => y.TypeDefs) =
        imps2.map (fun imp => imp.xml.map fun y => y.TypeDefs) →
      Typ.TypeDef.imports typ imps = Typ.TypeDef.imports typ imps2
  | [], [], _ => rfl
  | [], _ :: _, h => by simp at h
  | _ :: _, [], h => by simp at h
  | imp :: rest, imp2 :: rest2, h => by
    simp only [List.map_cons, List.cons.injEq] at h
    have ih := Typ.TypeDef.imports_congr typ rest rest2 h.2
    cases hx : imp.xml with
    | none =>
      cases hx2 : imp2.xml with
      | none => simp [Typ.TypeDef.imports, hx, hx2]
      | some y2 => simp [hx, hx2] at h
    | some y =>
      cases hx2 : imp2.xml with
      | none => simp [hx, hx2] at h
      | some y2 =>
        have hy : y.TypeDefs = y2.TypeDefs := by simpa [hx, hx2] using h.1
        simp only [Typ.TypeDef.imports, hx, hx2, hy, ih]

/-- C10: with the direct imports bound, `TypeDef(T)` returns `(Old, true)` for the first
typedef with `New = T` in the document's typedefs followed by those of the direct imports
taken in their order, and `("", false)` when there is none. The result depends only on
those typedef lists, so imports of imports are not searched, and the `Old` returned is
the one stored in that typedef, not looked up again. -/
theorem C10_typedef_one_hop (c : Context F E) (T : Typ) (hb : c.directBound = true) :
    Typ.TypeDef T c =
      .ok (match c.visibleTypeDefs.find? fun typedef => T == typedef.New with
           | some typedef => (typedef.Old, true)
           | none => ("", false)) ∧
    (∀ c2 : Context F E, c2.xml.TypeDefs = c.xml.TypeDefs →
      c2.xml.Imports.map (fun imp => imp.xml.map fun y => y.TypeDefs) =
        c.xml.Imports.map (fun imp => imp.xml.map fun y => y.TypeDefs) →
      Typ.TypeDef T c2 = Typ.TypeDef T c) := by
  refine ⟨Typ.TypeDef_eq_find T c hb, ?_⟩
  intro c2 h1 h2
  simp only [Typ.TypeDef, h1, Typ.TypeDef.imports_congr T _ _ h2]

/-- C10 on two samples: in `T -> T1 -> T2` the lookup of `T` stops at `T1`, and a typedef
declared in an import of an import is not found. -/
theorem C10_typedef_one_hop_witness :
    Sample.twoHops.directBound = true ∧ Sample.nested.directBound = true ∧
    Typ.TypeDef "T" Sample.twoHops = .ok ("T1", true) ∧
    Typ.TypeDef "Deep" Sample.nested = .ok ("", false) :=
  ⟨rfl, rfl,
    (C10_typedef_one_hop Sample.twoHops "T" rfl).1.trans rfl,
    (C10_typedef_one_hop Sample.nested "Deep" rfl).1.trans rfl⟩

/-! ## Idempotence of `Enums.Eval` -/

theorem Enums.evalItems_isSome (bits : Nat) (Eval : E → Nat) (newValueExpression : Nat → E)
    (items : List (EnumItem E)) :
    ∀ nextValue, ∀ item ∈ Enums.evalItems bits Eval newValueExpression nextValue items,
      item.Expr.isSome = true := by
  induction items with
  | nil => intro nextValue item h; simp [Enums.evalItems] at h
  | cons item0 rest ih =>
    intro nextValue item h
    cases h0 : item0.Expr with
    | none =>
      simp only [Enums.evalItems, h0, List.mem_cons] at h
      rcases h with rfl | h
      · rfl
      · exact ih _ item h
    | some e =>
      simp only [Enums.evalItems, h0, List.mem_cons] at h
      rcases h with rfl | h
      · simp [h0]
      · exact ih _ item h

theorem Enums.evalItems_of_isSome (bits : Nat) (Eval : E → Nat)
    (newValueExpression : Nat → E) (items : List (EnumItem E))
    (h : ∀ item ∈ items, item.Expr.isSome = true) :
    ∀ nextValue, Enums.evalItems bits Eval newValueExpression nextValue items = items := by
  induction items with
  | nil => intro nextValue; rfl
  | cons item0 rest ih =>
    intro nextValue
    have hrest := ih fun item hi => h item (List.mem_cons_of_mem _ hi)
    cases h0 : item0.Expr with
    | none =>
      have := h item0 (List.mem_cons_self _ _)
      simp [h0] at this
    | some e => simp only [Enums.evalItems, h0, hrest]

theorem Enums.evalItems_names (bits : Nat) (Eval : E → Nat) (newValueExpression : Nat → E)
    (items : List (EnumItem E)) :
    ∀ nextValue,
      (Enums.evalItems bits Eval newValueExpression nextValue items).map (fun item => item.Name) =
        items.map fun item => item.Name := by
  induction items with
  | nil => intro nextValue; rfl
  | cons item0 rest ih =>
    intro nextValue
    cases h0 : item0.Expr with
    | none => simp [Enums.evalItems, h0, ih]
    | some e => simp [Enums.evalItems, h0, ih]

/-- C19: `Enums.Eval` is idempotent. After one application every item has an expression,
a list of enums whose items all have expressions is left as it is, so a second
application changes nothing; and an application keeps the number, the order and the names
of the enums and of their items. This holds whatever `Expression.Eval` and
`newValueExpression` compute. -/
theorem C19_enums_eval_idempotent (bits : Nat) (Eval : E → Nat)
    (newValueExpression : Nat → E) (enums : List (Enum E)) :
    Enums.Eval bits Eval newValueExpression (Enums.Eval bits Eval newValueExpression enums) =
      Enums.Eval bits Eval newValueExpression enums ∧
    (∀ enum ∈ Enums.Eval bits Eval newValueExpression enums, ∀ item ∈ enum.Items,
      item.Expr.isSome = true) ∧
    ((∀ enum ∈ enums, ∀ item ∈ enum.Items, item.Expr.isSome = true) →
      Enums.Eval bits Eval newValueExpression enums = enums) ∧
    (Enums.Eval bits Eval newValueExpression enums).length = enums.length ∧
    (Enums.Eval bits Eval newValueExpression enums).map
        (fun enum => (enum.Name, enum.Items.map fun item => item.Name)) =
      enums.map fun enum => (enum.Name, enum.Items.map fun item => item.Name) := by
  have hsome : ∀ enum ∈ Enums.Eval bits Eval newValueExpression enums, ∀ item ∈ enum.Items,
      item.Expr.isSome = true := by
    intro enum henum item hitem
    simp only [Enums.Eval, List.mem_map] at henum
    obtain ⟨enum0, _, rfl⟩ := henum
    exact Enums.evalItems_isSome bits Eval newValueExpression enum0.Items 0 item hitem
  have hfix : ∀ l : List (Enum E), (∀ enum ∈ l, ∀ item ∈ enum.Items, item.Expr.isSome = true) →
      Enums.Eval bits Eval newValueExpression l = l := by
    intro l hl
    simp only [Enums.Eval]
    conv => rhs; rw [← List.map_id l]
    apply List.map_congr_left
    intro enum henum
    simp only [id]
    rw [Enums.evalItems_of_isSome bits Eval newValueExpression enum.Items (hl enum henum) 0]
  refine ⟨hfix _ hsome, hsome, hfix enums, ?_, ?_⟩
  · simp [Enums.Eval]
  · simp only [Enums.Eval, List.map_map]
    apply List.map_congr_left
    intro enum _
    simp [Enums.evalItems_names]

/-- C19 on the enum `[A, B(=5), C]` with numerals as expressions: the first application
gives `[0, 5, 6]` and the second one returns the same list. -/
theorem C19_enums_eval_idempotent_witness :
    Enums.Eval 64 (fun e : Nat => e) (fun v => v)
        [⟨"e", [⟨"A", none⟩, ⟨"B", some 5⟩, ⟨"C", none⟩]⟩] =
      [⟨"e", [⟨"A", some 0⟩, ⟨"B", some 5⟩, ⟨"C", some 6⟩]⟩] ∧
    Enums.Eval 64 (fun e : Nat => e) (fun v => v)
        (Enums.Eval 64 (fun e : Nat => e) (fun v => v)
          [⟨"e", [⟨"A", none⟩, ⟨"B", some 5⟩, ⟨"C", none⟩]⟩]) =
      Enums.Eval 64 (fun e : Nat => e) (fun v => v)
        [⟨"e", [⟨"A", none⟩, ⟨"B", some 5⟩, ⟨"C", none⟩]⟩] :=
  ⟨by decide,
    (C19_enums_eval_idempotent 64 (fun e : Nat => e) (fun v => v)
      [⟨"e", [⟨"A", none⟩, ⟨"B", some 5⟩, ⟨"C", none⟩]⟩]).1⟩

/-! ## `Union` on a name without typedef -/

/-- C11: when `TypeDef(T)` finds no typedef, `Union(T)` is the first union named `T` of the
document, otherwise the first union named `T` of the direct imports taken in order,
otherwise nil. Only those lists are searched, so a union that no document among them
declares is not found, wherever else the tree may declare it. -/
theorem C11_union_of_plain_name (c : Context F E) (T : Typ)
    (h : Typ.TypeDef T c = .ok ("", false)) :
    (∀ fuel, Typ.Union (fuel + 1) T c =
      some (.ok ((c.xml.Unions.find? fun union => T == union.Name).or
        ((c.xml.Imports.flatMap fun imp =>
            match imp.xml with
            | some y => y.Unions
            | none => []).find? fun union => T == union.Name)))) ∧
    (∀ u, (c.xml.Unions.find? fun union => T == union.Name) = some u →
      ∀ fuel, Typ.Union (fuel + 1) T c = some (.ok (some u))) ∧
    ((c.xml.Unions.find? fun union => T == union.Name) = none →
      ∀ fuel, Typ.Union (fuel + 1) T c =
        some (.ok ((c.xml.Imports.flatMap fun imp =>
            match imp.xml with
            | some y => y.Unions
            | none => []).find? fun union => T == union.Name))) ∧
    ((∀ u ∈ c.visibleUnions, u.Name ≠ T) →
      ∀ fuel, Typ.Union (fuel + 1) T c = some (.ok none)) := by
  have hall : ∀ fuel, Typ.Union (fuel + 1) T c =
      some (.ok ((c.xml.Unions.find? fun union => T == union.Name).or
        ((c.xml.Imports.flatMap fun imp =>
            match imp.xml with
            | some y => y.Unions
            | none => []).find? fun union => T == union.Name))) := fun fuel => by
    rw [Typ.Union_of_no_typedef T c h fuel, Context.visibleUnions, List.find?_append]
  refine ⟨hall, ?_, ?_, ?_⟩
  · intro u hu fuel
    rw [hall fuel, hu]; rfl
  · intro hn fuel
    rw [hall fuel, hn]; rfl
  · intro hn fuel
    rw [Typ.Union_of_no_typedef T c h fuel]
    have : (c.visibleUnions.find? fun union => T == union.Name) = none := by
      rw [List.find?_eq_none]
      intro u hu hp
      have hT : T = u.Name := by simpa using hp
      exact hn u hu hT.symm
    rw [this]

/-- C11 on two samples: the document's own union `U` wins over the imported ones, `V` is
found in the second import, and a union declared two imports away is not found. -/
theorem C11_union_of_plain_name_witness :
    Typ.TypeDef "U" Sample.unionOrder = .ok ("", false) ∧
    Typ.Union 1 "U" Sample.unionOrder = some (.ok (some ⟨"U", 1⟩)) ∧
    Typ.Union 1 "V" Sample.unionOrder = some (.ok (some ⟨"V", 4⟩)) ∧
    Typ.TypeDef "U" Sample.nestedUnion = .ok ("", false) ∧
    Typ.Union 1 "U" Sample.nestedUnion = some (.ok none) :=
  ⟨rfl, (C11_union_of_plain_name Sample.unionOrder "U" rfl).2.1 ⟨"U", 1⟩ rfl 0,
    ((C11_union_of_plain_name Sample.unionOrder "V" rfl).2.2.1 rfl 0).trans rfl, rfl,
    (C11_union_of_plain_name Sample.nestedUnion "U" rfl).2.2.2 (by decide) 0⟩

/-! ## `Size` against `TypeDef`, and alias cycles -/

/-- C16: the typedef search written out in `Type.Size` finds what `Type.TypeDef` finds.
For a `T` that is no key of `BaseTypeSizes` and no resource: when `TypeDef(T)` returns
`(old, true)`, the call `Size(T)` is the call `Size(old)` one level deeper, so both have
the same results; when `TypeDef(T)` returns `("", false)`, `Size(T)` fails with "Could
not find base size" for `T`. -/
theorem C16_size_search_is_typedef (BaseTypeSizes : String → Option Nat) (c : Context F E)
    (T : Typ) (hB : BaseTypeSizes T = none) (hR : c.xml.IsResource T = .ok false) :
    (Typ.TypeDef T c =
      match Typ.Size.scan T c.xml.TypeDefs with
      | some old => .ok (old, true)
      | none =>
        match Typ.Size.imports T c.xml.Imports with
        | .error e => .error e
        | .ok (some old) => .ok (old, true)
        | .ok none => .ok ("", false)) ∧
    (∀ old, Typ.TypeDef T c = .ok (old, true) →
      (∀ fuel, Typ.Size BaseTypeSizes (fuel + 1) T c = Typ.Size BaseTypeSizes fuel old c) ∧
      ∀ r, (∃ fuel, Typ.Size BaseTypeSizes fuel T c = some r) ↔
        (∃ fuel, Typ.Size BaseTypeSizes fuel old c = some r)) ∧
    (Typ.TypeDef T c = .ok ("", false) →
      ∀ fuel, Typ.Size BaseTypeSizes (fuel + 1) T c = some (.error (.noBaseSize T))) := by
  refine ⟨?_, ?_, ?_⟩
  · simp only [Typ.TypeDef, Typ.Size.scan_eq, Typ.Size.imports_eq]
    cases Typ.Size.scan T c.xml.TypeDefs with
    | some old => rfl
    | none => rfl
  · intro old hT
    have hstep : ∀ fuel,
        Typ.Size BaseTypeSizes (fuel + 1) T c = Typ.Size BaseTypeSizes fuel old c :=
      fun fuel => by
        rw [Typ.Size_step]
        simp only [hB, hR, hT]
    refine ⟨hstep, fun r => ⟨?_, ?_⟩⟩
    · rintro ⟨fuel, h⟩
      cases fuel with
      | zero => cases h
      | succ k => exact ⟨k, by rw [← hstep k]; exact h⟩
    · rintro ⟨fuel, h⟩
      exact ⟨fuel + 1, by rw [hstep fuel]; exact h⟩
  · intro hT fuel
    rw [Typ.Size_step]
    simp only [hB, hR, hT]

/-- C16 on the sample `T -> T1 -> T2`: `Size("T")` is `Size("T1")` one level deeper, and
`Size("T2")`, for which `TypeDef` finds nothing, fails. -/
theorem C16_size_search_is_typedef_witness :
    Sample.sizes "T" = none ∧ Sample.twoHops.xml.IsResource "T" = .ok false ∧
    Typ.TypeDef "T" Sample.twoHops = .ok ("T1", true) ∧
    Typ.Size Sample.sizes 3 "T" Sample.twoHops = Typ.Size Sample.sizes 2 "T1" Sample.twoHops ∧
    Typ.TypeDef "T2" Sample.twoHops = .ok ("", false) ∧
    Typ.Size Sample.sizes 1 "T2" Sample.twoHops = some (.error (.noBaseSize "T2")) :=
  ⟨rfl, rfl, rfl,
    ((C16_size_search_is_typedef Sample.sizes Sample.twoHops "T" rfl rfl).2.1 "T1" rfl).1 2,
    rfl,
    (C16_size_search_is_typedef Sample.sizes Sample.twoHops "T2" rfl rfl).2.2 rfl 0⟩

/-- C12: an alias cycle does not terminate. If `T` comes back to itself through one or
more of the hops `Size` takes (names that are no keys of `BaseTypeSizes` and no
resources, each with a first typedef leading to the next), then `Size(T)` yields no
result, neither a size nor a failure, at any recursion depth. -/
theorem C12_alias_cycle_diverges (BaseTypeSizes : String → Option Nat) (c : Context F E)
    (T : Typ) (hcycle : Relation.TransGen (c.sizeHop BaseTypeSizes) T T) :
    ∀ fuel, Typ.Size BaseTypeSizes fuel T c = none := by
  intro fuel
  induction fuel generalizing T with
  | zero => rfl
  | succ fuel ih =>
    obtain ⟨b, hab, hbT⟩ := Relation.TransGen.head'_iff.1 hcycle
    rw [Typ.Size_of_hop BaseTypeSizes fuel T b c hab]
    exact ih b (Relation.TransGen.tail' hbT hab)

/-- C12 on the cycles `A -> B -> A` and `S -> S`: `Size` has no result on `A`, `B` and
`S`, whatever the depth. -/
theorem C12_alias_cycle_diverges_witness :
    Relation.TransGen (Sample.cycles.sizeHop Sample.sizes) "A" "A" ∧
    Relation.TransGen (Sample.cycles.sizeHop Sample.sizes) "S" "S" ∧
    (∀ fuel, Typ.Size Sample.sizes fuel "A" Sample.cycles = none) ∧
    (∀ fuel, Typ.Size Sample.sizes fuel "B" Sample.cycles = none) ∧
    (∀ fuel, Typ.Size Sample.sizes fuel "S" Sample.cycles = none) :=
  have hAB : Sample.cycles.sizeHop Sample.sizes "A" "B" := ⟨rfl, rfl, rfl⟩
  have hBA : Sample.cycles.sizeHop Sample.sizes "B" "A" := ⟨rfl, rfl, rfl⟩
  have hSS : Sample.cycles.sizeHop Sample.sizes "S" "S" := ⟨rfl, rfl, rfl⟩
  ⟨Relation.TransGen.tail (Relation.TransGen.single hAB) hBA, Relation.TransGen.single hSS,
    C12_alias_cycle_diverges Sample.sizes Sample.cycles "A"
      (Relation.TransGen.tail (Relation.TransGen.single hAB) hBA),
    C12_alias_cycle_diverges Sample.sizes Sample.cycles "B"
      (Relation.TransGen.tail (Relation.TransGen.single hBA) hAB),
    C12_alias_cycle_diverges Sample.sizes Sample.cycles "S" (Relation.TransGen.single hSS)⟩

/-! ## What `Union` returns -/

theorem Context.mem_visibleUnions (c : Context F E) (u : Xgbgen.Union F)
    (h : u ∈ c.visibleUnions) :
    u ∈ c.xml.Unions ∨ ∃ imp ∈ c.xml.Imports, ∃ y, imp.xml = some y ∧ u ∈ y.Unions := by
  simp only [Context.visibleUnions, List.mem_append, List.mem_flatMap] at h
  rcases h with h | ⟨imp, himp, hu⟩
  · exact Or.inl h
  · cases hx : imp.xml with
    | none => rw [hx] at hu; simp at hu
    | some y => rw [hx] at hu; exact Or.inr ⟨imp, himp, y, hx, hu⟩

/-- A union returned by `Type.Union` is found at the end of the typedef hops. -/
theorem Typ.Union_result (c : Context F E) (u : Xgbgen.Union F) :
    ∀ fuel T, Typ.Union fuel T c = some (.ok (some u)) →
      ∃ N, Relation.ReflTransGen c.aliasHop T N ∧ Typ.TypeDef N c = .ok ("", false) ∧
        u.Name = N ∧ u ∈ c.visibleUnions := by
  intro fuel
  induction fuel with
  | zero => intro T h; cases h
  | succ fuel ih =>
    intro T h
    rcases Typ.TypeDef_cases T c with hT | ⟨old, hT⟩ | ⟨hT, _⟩
    · simp only [Typ.Union, hT] at h
      cases h
    · rw [Typ.Union_of_typedef T old c hT] at h
      obtain ⟨N, h1, h2⟩ := ih old h
      exact ⟨N, Relation.ReflTransGen.head hT h1, h2⟩
    · rw [Typ.Union_of_no_typedef T c hT] at h
      have hf : (c.visibleUnions.find? fun union => T == union.Name) = some u := by
        simpa using h
      have hp := List.find?_some hf
      have hname : T = u.Name := by simpa using hp
      exact ⟨T, Relation.ReflTransGen.refl, hT, hname.symm, List.mem_of_find?_eq_some hf⟩

/-- C18: when `Union(T)` returns a union `u`, the typedef hops from `T` end at a name `N`
without typedef, `u.Name = N`, and `u` is one of the document's unions or one of the
unions of a direct import. A `T` that is the new name of a typedef is resolved through
that typedef: the result is that of the old name and is never a union named `T`. -/
theorem C18_union_result (c : Context F E) (T : Typ) (u : Xgbgen.Union F) (fuel : Nat)
    (h : Typ.Union fuel T c = some (.ok (some u))) :
    (∃ N, Relation.ReflTransGen c.aliasHop T N ∧ Typ.TypeDef N c = .ok ("", false) ∧
      u.Name = N) ∧
    (u ∈ c.xml.Unions ∨ ∃ imp ∈ c.xml.Imports, ∃ y, imp.xml = some y ∧ u ∈ y.Unions) ∧
    (∀ old, Typ.TypeDef T c = .ok (old, true) →
      u.Name ≠ T ∧ ∃ k, fuel = k + 1 ∧ Typ.Union k old c = some (.ok (some u))) := by
  obtain ⟨N, h1, h2, h3, h4⟩ := Typ.Union_result c u fuel T h
  refine ⟨⟨N, h1, h2, h3⟩, Context.mem_visibleUnions c u h4, ?_⟩
  intro old hT
  refine ⟨?_, ?_⟩
  · intro hname
    rw [h3] at hname
    rw [hname, hT] at h2
    cases h2
  · cases fuel with
    | zero => cases h
    | succ k => exact ⟨k, rfl, by rw [← Typ.Union_of_typedef T old c hT]; exact h⟩

/-- C18 on the typedef `U -> V` next to unions `U` and `V`: `Union("U")` is the union
`V`, reached through the typedef. -/
theorem C18_union_result_witness :
    Typ.Union 2 "U" Sample.aliasedUnion = some (.ok (some ⟨"V", 2⟩)) ∧
    Sample.aliasedUnion.xml.Unions = [⟨"U", 1⟩, ⟨"V", 2⟩] ∧
    Typ.TypeDef "U" Sample.aliasedUnion = .ok ("V", true) ∧
    (⟨"V", 2⟩ : Xgbgen.Union Nat).Name ≠ "U" :=
  ⟨rfl, rfl, rfl,
    ((C18_union_result Sample.aliasedUnion "U" ⟨"V", 2⟩ 2 rfl).2.2 "V" rfl).1⟩

/-! ## The order of emission -/

/-- C14: `XML.Morph` writes the header and then hands the categories to their emitters
once each, in the order imports, enums, resource types, resource unions, type aliases,
structs, unions, requests, errors, error aliases, events, event aliases, each followed by
one `Putln("")`. Whatever the emitters do, running `Morph` is running that script; the
script is made of `Putln` calls and emitter calls only and reads nothing of the document
but the twelve lists it hands over and the header name. -/
theorem C14_morph_order {σ : Type} (em : Emitters F E σ) (now : String) (x : XML F E)
    (c : Context F E) (s : σ) :
    XML.Morph em now x c s =
      (Morph.script now x c).foldl (fun s e => em.run c e s) s ∧
    (∀ out, XML.Morph Emitters.log now x c out = out ++ Morph.script now x c) ∧
    Morph.script now x c =
      Morph.header now c ++
        [.imports x.Imports, .line "" [], .enums x.Enums, .line "" [],
         .xids x.Xids, .line "" [], .xids x.XidUnions, .line "" [],
         .typeDefs x.TypeDefs, .line "" [], .structs x.Structs, .line "" [],
         .unions x.Unions, .line "" [], .requests x.Requests, .line "" [],
         .errors x.Errors, .line "" [], .errorCopies x.ErrorCopies, .line "" [],
         .events x.Events, .line "" [], .eventCopies x.EventCopies, .line "" []] ∧
    (Morph.categories x).length = 12 ∧
    (∀ c2 : Context F E, c2.xml.Header = c.xml.Header →
      Morph.script now x c2 = Morph.script now x c) := by
  refine ⟨rfl, ?_, rfl, rfl, ?_⟩
  · intro out
    simp [XML.Morph, Emitters.log, Morph.script, Morph.header, Morph.categories]
  · intro c2 h
    simp only [Morph.script, Morph.header, h]

/-! ## `IsResource` after `Imports.Eval` -/

/-- `Imports.Eval` binds every import of the list to what `parse` returns for its name. -/
theorem Imports.Eval_bound (parse : String → Option (XML F E)) :
    ∀ imps imps2 : List (Import F E), Imports.Eval parse imps = some imps2 →
      ∀ imp ∈ imps2, ∃ y, imp.xml = some y ∧ parse imp.Name = some y
  | [], imps2, h => by
    simp only [Imports.Eval, Option.some.injEq] at h
    subst h
    intro imp himp
    cases himp
  | imp0 :: rest, imps2, h => by
    simp only [Imports.Eval] at h
    cases hp : parse imp0.Name with
    | none => rw [hp] at h; cases h
    | some y =>
      rw [hp] at h
      cases hr : Imports.Eval parse rest with
      | none => rw [hr] at h; cases h
      | some rest2 =>
        rw [hr] at h
        simp only [Option.some.injEq] at h
        subst h
        intro imp himp
        rcases List.mem_cons.1 himp with rfl | himp
        · exact ⟨y, rfl, hp⟩
        · exact Imports.Eval_bound parse rest rest2 hr imp himp

/-- On a freshly parsed document `IsResource` answers from the document's own resources
when it has no imports, and dereferences an unbound import otherwise, unless the name is
one of those resources. -/
theorem XML.IsResource_fresh (needle : Typ) (y : XML F E) (hf : y.fresh = true) :
    y.IsResource needle =
      if needle ∈ y.ownResourceNames then .ok true
      else if y.Imports.isEmpty then .ok false else .error .nilDeref := by
  cases y with
  | mk h1 h2 h3 h4 h5 imports enums xids xidunions typedefs evcopies errcopies structs unions
      requests events errors =>
    have e1 := any_name_iff (fun xid : Xid => xid.Name) needle xids
    have e2 := any_name_iff (fun xid : Xid => xid.Name) needle xidunions
    simp only [XML.IsResource, XML.ownResourceNames, XML.Xids, XML.XidUnions, XML.Imports,
      List.mem_append, e1, e2]
    by_cases hx : needle ∈ xids.map (fun xid => xid.Name)
    · simp [hx]
    · by_cases hu : needle ∈ xidunions.map (fun xid => xid.Name)
      · simp [hx, hu]
      · simp only [hx, hu, if_false, or_self]
        cases imports with
        | nil => simp [XML.IsResource.imports]
        | cons imp rest =>
          cases imp with
          | mk n v =>
            cases v with
            | none => simp [XML.IsResource.imports]
            | some z => simp [XML.fresh, XML.Imports, Import.xml] at hf

/-- Over imports bound to freshly parsed documents, a name that none of them declares as a
resource makes `IsResource` dereference an unbound import as soon as one of the documents
has imports of its own. -/
theorem XML.IsResource.imports_fresh (needle : Typ) :
    ∀ imps : List (Import F E),
      (∀ imp ∈ imps, ∃ y, imp.xml = some y ∧ y.fresh = true ∧ needle ∉ y.ownResourceNames) →
      (∃ imp ∈ imps, ∃ y, imp.xml = some y ∧ y.Imports.isEmpty = false) →
      XML.IsResource.imports needle imps = .error .nilDeref
  | [], _, h => by
    obtain ⟨imp, himp, _⟩ := h
    cases himp
  | .mk n none :: rest, hall, _ => by
    obtain ⟨y, hy, _⟩ := hall (.mk n none) (List.mem_cons_self _ _)
    cases hy
  | .mk n (some y) :: rest, hall, hex => by
    obtain ⟨y2, hy2, hfresh, hnot⟩ := hall (.mk n (some y)) (List.mem_cons_self _ _)
    have hyy : y = y2 := by
      simpa [Import.xml] using hy2
    subst hyy
    have hres := XML.IsResource_fresh needle y hfresh
    rw [if_neg hnot] at hres
    cases hemp : y.Imports.isEmpty with
    | true =>
      rw [hemp, if_pos rfl] at hres
      simp only [XML.IsResource.imports, hres]
      apply XML.IsResource.imports_fresh needle rest
        (fun imp himp => hall imp (List.mem_cons_of_mem _ himp))
      obtain ⟨imp, himp, z, hz, hne⟩ := hex
      rcases List.mem_cons.1 himp with rfl | himp
      · have hzy : y = z := by simpa [Import.xml] using hz
        subst hzy
        rw [hemp] at hne
        cases hne
      · exact ⟨imp, himp, z, hz, hne⟩
    | false =>
      rw [hemp, if_neg (by decide)] at hres
      simp only [XML.IsResource.imports, hres]

/-- After `Imports.Eval` with a decoder that leaves imports unbound, `IsResource` on the
root dereferences an unbound import for every name that is declared as a resource neither
by the root nor by a direct import, as soon as one imported document has imports. -/
theorem XML.IsResource_after_Eval (parse : String → Option (XML F E))
    (hparse : ∀ name y, parse name = some y → y.fresh = true)
    (root : XML F E) (imps2 : List (Import F E))
    (heval : Imports.Eval parse root.Imports = some imps2) (needle : Typ)
    (hroot : needle ∉ root.ownResourceNames)
    (himps : ∀ imp ∈ imps2, ∀ y, imp.xml = some y → needle ∉ y.ownResourceNames)
    (hex : ∃ imp ∈ imps2, ∃ y, imp.xml = some y ∧ y.Imports.isEmpty = false) :
    (root.setImports imps2).IsResource needle = .error .nilDeref := by
  have hall : ∀ imp ∈ imps2,
      ∃ y, imp.xml = some y ∧ y.fresh = true ∧ needle ∉ y.ownResourceNames := by
    intro imp himp
    obtain ⟨y, hy, hp⟩ := Imports.Eval_bound parse root.Imports imps2 heval imp himp
    exact ⟨y, hy, hparse _ y hp, himps imp himp y hy⟩
  have himports := XML.IsResource.imports_fresh needle imps2 hall hex
  cases root with
  | mk h1 h2 h3 h4 h5 imports enums xids xidunions typedefs evcopies errcopies structs unions
      requests events errors =>
    have e1 := any_name_iff (fun xid : Xid => xid.Name) needle xids
    have e2 := any_name_iff (fun xid : Xid => xid.Name) needle xidunions
    simp only [XML.ownResourceNames, XML.Xids, XML.XidUnions, List.mem_append, not_or,
      ← e1, ← e2, Bool.not_eq_true] at hroot
    simp only [XML.setImports, XML.IsResource, hroot.1, hroot.2, himports,
      Bool.false_eq_true, if_false]

/-- C15 fails on the code: `Imports.Eval` applied to the sample root binds `mid` to a
freshly parsed document whose own import `deep` stays unbound, and on that tree
`IsResource` returns true only for the resources of the root and of `mid`; for every
other name, `WINDOW` of `deep.xml` included, it dereferences the unbound import. -/
theorem C15_is_resource_after_eval :
    (Imports.Eval Sample.files Sample.root.Imports).map Sample.root.setImports =
      some Sample.evaluated.xml ∧
    (Sample.files "mid").map (fun y => y.fresh) = some true ∧
    (Sample.files "mid").map (fun y => y.Imports.isEmpty) = some false ∧
    Sample.evaluated.xml.IsResource "REGION" = .ok true ∧
    Sample.evaluated.xml.IsResource "PICTURE" = .ok true ∧
    Sample.evaluated.xml.IsResource "WINDOW" = .error .nilDeref ∧
    (∀ T : Typ, T ≠ "REGION" → T ≠ "PICTURE" →
      Sample.evaluated.xml.IsResource T = .error .nilDeref) := by
  refine ⟨rfl, rfl, rfl, rfl, rfl, rfl, ?_⟩
  intro T h1 h2
  simp [Sample.evaluated, Sample.doc, XML.IsResource, XML.IsResource.imports, h1, h2]

/-! ## Termination on acyclic aliases -/

theorem Typ.TypeDef.imports_mem (typ old : Typ) :
    ∀ imps : List (Import F E), Typ.TypeDef.imports typ imps = .ok (old, true) →
      typ ∈ (imps.flatMap fun imp =>
        match imp.xml with
        | some y => y.TypeDefs
        | none => []).map fun typedef => typedef.New
  | [], h => by simp [Typ.TypeDef.imports] at h
  | imp :: rest, h => by
    simp only [Typ.TypeDef.imports] at h
    cases hx : imp.xml with
    | none => rw [hx] at h; cases h
    | some y =>
      rw [hx] at h
      simp only [List.flatMap_cons, hx, List.map_append, List.mem_append]
      cases hs : Typ.TypeDef.scan typ y.TypeDefs with
      | some r =>
        left
        rw [Typ.TypeDef.scan_eq_find] at hs
        cases hf : y.TypeDefs.find? (fun typedef => typ == typedef.New) with
        | none => rw [hf] at hs; cases hs
        | some td =>
          have hp := List.find?_some hf
          exact List.mem_map.2 ⟨td, List.mem_of_find?_eq_some hf, (by simpa using hp : typ = td.New).symm⟩
      | none =>
        right
        simp only [hs] at h
        exact Typ.TypeDef.imports_mem typ old rest h

/-- A name with a typedef hop is the new name of a typedef of the document or of one of
its direct imports. -/
theorem Typ.TypeDef_mem (typ old : Typ) (c : Context F E)
    (h : Typ.TypeDef typ c = .ok (old, true)) :
    typ ∈ c.visibleTypeDefs.map fun typedef => typedef.New := by
  simp only [Context.visibleTypeDefs, List.map_append, List.mem_append]
  unfold Typ.TypeDef at h
  cases hs : Typ.TypeDef.scan typ c.xml.TypeDefs with
  | some r =>
    left
    rw [Typ.TypeDef.scan_eq_find] at hs
    cases hf : c.xml.TypeDefs.find? (fun typedef => typ == typedef.New) with
    | none => rw [hf] at hs; cases hs
    | some td =>
      have hp := List.find?_some hf
      exact List.mem_map.2 ⟨td, List.mem_of_find?_eq_some hf, (by simpa using hp : typ = td.New).symm⟩
  | none =>
    right
    simp only [hs] at h
    exact Typ.TypeDef.imports_mem typ old c.xml.Imports h

/-- A recursion that either returns or moves along a typedef hop returns within as many
levels as there are typedefs, plus one, when no name reaches itself through hops. -/
theorem Context.recursion_returns {R : Type} (c : Context F E) (f : Nat → Typ → Option R)
    (hstep : ∀ fuel T, (f (fuel + 1) T).isSome = true ∨
      ∃ old, c.aliasHop T old ∧ f (fuel + 1) T = f fuel old)
    (hac : ∀ a, ¬ Relation.TransGen c.aliasHop a a) :
    ∀ (n : Nat) (path : List Typ) (T : Typ), path.Nodup →
      (∀ v ∈ path, Relation.TransGen c.aliasHop v T) →
      path ⊆ c.visibleTypeDefs.map (fun typedef => typedef.New) →
      (c.visibleTypeDefs.map fun typedef => typedef.New).length ≤ path.length + n →
      ∀ fuel, n < fuel → (f fuel T).isSome = true := by
  intro n
  induction n with
  | zero =>
    intro path T hnd hreach hsub hlen fuel hfuel
    obtain ⟨k, rfl⟩ : ∃ k, fuel = k + 1 := ⟨fuel - 1, by omega⟩
    rcases hstep k T with h | ⟨old, hhop, _⟩
    · exact h
    · exfalso
      have hT : T ∉ path := fun hmem => hac T (hreach T hmem)
      have hnd2 : (T :: path).Nodup := List.nodup_cons.2 ⟨hT, hnd⟩
      have hsub2 : (T :: path) ⊆ c.visibleTypeDefs.map (fun typedef => typedef.New) :=
        List.cons_subset.2 ⟨Typ.TypeDef_mem T old c hhop, hsub⟩
      have := (List.Nodup.subperm hnd2 hsub2).length_le
      simp only [List.length_cons] at this
      omega
  | succ m ih =>
    intro path T hnd hreach hsub hlen fuel hfuel
    obtain ⟨k, rfl⟩ : ∃ k, fuel = k + 1 := ⟨fuel - 1, by omega⟩
    rcases hstep k T with h | ⟨old, hhop, heq⟩
    · exact h
    · have hT : T ∉ path := fun hmem => hac T (hreach T hmem)
      have hnd2 : (T :: path).Nodup := List.nodup_cons.2 ⟨hT, hnd⟩
      have hsub2 : (T :: path) ⊆ c.visibleTypeDefs.map (fun typedef => typedef.New) :=
        List.cons_subset.2 ⟨Typ.TypeDef_mem T old c hhop, hsub⟩
      have hreach2 : ∀ v ∈ T :: path, Relation.TransGen c.aliasHop v old := by
        intro v hv
        rcases List.mem_cons.1 hv with rfl | hv
        · exact Relation.TransGen.single hhop
        · exact Relation.TransGen.tail (hreach v hv) hhop
      rw [heq]
      exact ih (T :: path) old hnd2 hreach2 hsub2
        (by simp only [List.length_cons]; omega) k (by omega)

theorem Typ.Union_step (c : Context F E) (fuel : Nat) (T : Typ) :
    (Typ.Union (fuel + 1) T c).isSome = true ∨
      ∃ old, c.aliasHop T old ∧ Typ.Union (fuel + 1) T c = Typ.Union fuel old c := by
  rcases Typ.TypeDef_cases T c with hT | ⟨old, hT⟩ | ⟨hT, _⟩
  · left; simp only [Typ.Union, hT]; rfl
  · right; exact ⟨old, hT, Typ.Union_of_typedef T old c hT fuel⟩
  · left; rw [Typ.Union_of_no_typedef T c hT]; rfl

theorem Typ.Size_returns_or_hops (BaseTypeSizes : String → Option Nat) (c : Context F E)
    (fuel : Nat) (T : Typ) :
    (Typ.Size BaseTypeSizes (fuel + 1) T c).isSome = true ∨
      ∃ old, c.aliasHop T old ∧
        Typ.Size BaseTypeSizes (fuel + 1) T c = Typ.Size BaseTypeSizes fuel old c := by
  rw [Typ.Size_step]
  cases BaseTypeSizes T with
  | some size => left; rfl
  | none =>
    cases c.xml.IsResource T with
    | error e => left; rfl
    | ok b =>
      cases b with
      | true => left; rfl
      | false =>
        rcases Typ.TypeDef_cases T c with hT | ⟨old, hT⟩ | ⟨hT, _⟩
        · left; simp only [hT]; rfl
        · right; exact ⟨old, hT, by simp only [hT]⟩
        · left; simp only [hT]; rfl

/-- With acyclic aliases `Type.Union` and `Type.Size` return on every name, at every
recursion depth beyond the number of typedefs of the document and its direct imports. -/
theorem Typ.returns_of_acyclic (BaseTypeSizes : String → Option Nat) (c : Context F E)
    (hac : ∀ a, ¬ Relation.TransGen c.aliasHop a a) (T : Typ) (fuel : Nat)
    (hfuel : c.visibleTypeDefs.length < fuel) :
    (Typ.Size BaseTypeSizes fuel T c).isSome = true ∧ (Typ.Union fuel T c).isSome = true := by
  have hlen : (c.visibleTypeDefs.map fun typedef => typedef.New).length ≤
      ([] : List Typ).length + c.visibleTypeDefs.length := by simp
  exact ⟨Context.recursion_returns c (fun fuel T => Typ.Size BaseTypeSizes fuel T c)
      (Typ.Size_returns_or_hops BaseTypeSizes c) hac c.visibleTypeDefs.length [] T
      List.nodup_nil (fun v hv => by cases hv) (List.nil_subset _) hlen fuel hfuel,
    Context.recursion_returns c (fun fuel T => Typ.Union fuel T c)
      (Typ.Union_step c) hac c.visibleTypeDefs.length [] T
      List.nodup_nil (fun v hv => by cases hv) (List.nil_subset _) hlen fuel hfuel⟩

/-- The only failure of `Type.TypeDef` is the dereference of an unbound direct import. -/
theorem Typ.TypeDef_error (typ : Typ) (c : Context F E) (e : Failure)
    (h : Typ.TypeDef typ c = .error e) : e = .nilDeref ∧ c.directBound = false := by
  rcases Typ.TypeDef_cases typ c with hT | ⟨old, hT⟩ | ⟨hT, _⟩
  · rw [hT] at h
    cases h
    refine ⟨rfl, ?_⟩
    cases hb : c.directBound with
    | false => rfl
    | true =>
      rw [Typ.TypeDef_eq_find typ c hb] at hT
      cases hT
  · rw [hT] at h; cases h
  · rw [hT] at h; cases h

/-- What `Type.Union` can return: a union or nil, or the dereference of a direct import
that is unbound. -/
theorem Typ.Union_outcome (c : Context F E) :
    ∀ fuel T r, Typ.Union fuel T c = some r →
      (∃ u, r = .ok u) ∨ (r = .error .nilDeref ∧ c.directBound = false) := by
  intro fuel
  induction fuel with
  | zero => intro T r h; cases h
  | succ fuel ih =>
    intro T r h
    rcases Typ.TypeDef_cases T c with hT | ⟨old, hT⟩ | ⟨hT, _⟩
    · simp only [Typ.Union, hT, Option.some.injEq] at h
      subst h
      exact Or.inr ⟨rfl, (Typ.TypeDef_error T c _ hT).2⟩
    · rw [Typ.Union_of_typedef T old c hT] at h
      exact ih old r h
    · rw [Typ.Union_of_no_typedef T c hT] at h
      simp only [Option.some.injEq] at h
      exact Or.inl ⟨_, h.symm⟩

/-- What `Type.Size` can return: a size, the "Could not find base size" failure, or, on a
tree with an unbound import, the dereference of such an import. -/
theorem Typ.Size_outcome (BaseTypeSizes : String → Option Nat) (c : Context F E) :
    ∀ fuel T r, Typ.Size BaseTypeSizes fuel T c = some r →
      (∃ size, r = .ok size) ∨ (∃ N, r = .error (.noBaseSize N)) ∨
        (r = .error .nilDeref ∧ c.xml.allBound = false) := by
  intro fuel
  induction fuel with
  | zero => intro T r h; cases h
  | succ fuel ih =>
    intro T r h
    rw [Typ.Size_step] at h
    cases hB : BaseTypeSizes T with
    | some size =>
      simp only [hB, Option.some.injEq] at h
      exact Or.inl ⟨size, h.symm⟩
    | none =>
      cases hR : c.xml.IsResource T with
      | error e =>
        simp only [hB, hR, Option.some.injEq] at h
        have he := XML.IsResource_error T e c.xml hR
        subst he
        refine Or.inr (Or.inr ⟨h.symm, ?_⟩)
        cases hb : c.xml.allBound with
        | false => rfl
        | true =>
          rw [XML.IsResource_eq_mem T c.xml hb] at hR
          cases hR
      | ok b =>
        cases b with
        | true =>
          simp only [hB, hR, Option.some.injEq] at h
          exact Or.inl ⟨_, h.symm⟩
        | false =>
          rcases Typ.TypeDef_cases T c with hT | ⟨old, hT⟩ | ⟨hT, _⟩
          · have hb := Context.directBound_of_allBound c
              (XML.IsResource_false_bound T c.xml hR)
            rw [(Typ.TypeDef_error T c _ hT).2] at hb
            cases hb
          · simp only [hB, hR, hT] at h
            exact ih old r h
          · simp only [hB, hR, hT, Option.some.injEq] at h
            exact Or.inr (Or.inl ⟨T, h.symm⟩)

/-- On a tree whose imports are all bound and whose aliases are acyclic, `Type.Size` ends
with a size or the "Could not find base size" failure and `Type.Union` with a union or
nil, on every name and at every recursion depth beyond the number of typedefs. -/
theorem Typ.terminates_of_acyclic (BaseTypeSizes : String → Option Nat) (c : Context F E)
    (hac : ∀ a, ¬ Relation.TransGen c.aliasHop a a) (hb : c.xml.allBound = true)
    (T : Typ) (fuel : Nat) (hfuel : c.visibleTypeDefs.length < fuel) :
    ((∃ size, Typ.Size BaseTypeSizes fuel T c = some (.ok size)) ∨
      ∃ N, Typ.Size BaseTypeSizes fuel T c = some (.error (.noBaseSize N))) ∧
    ∃ u, Typ.Union fuel T c = some (.ok u) := by
  obtain ⟨h1, h2⟩ := Typ.returns_of_acyclic BaseTypeSizes c hac T fuel hfuel
  constructor
  · cases hs : Typ.Size BaseTypeSizes fuel T c with
    | none => rw [hs] at h1; cases h1
    | some r =>
      rcases Typ.Size_outcome BaseTypeSizes c fuel T r hs with ⟨s, rfl⟩ | ⟨N, rfl⟩ | ⟨_, hf⟩
      · exact Or.inl ⟨s, rfl⟩
      · exact Or.inr ⟨N, rfl⟩
      · rw [hb] at hf; cases hf
  · cases hs : Typ.Union fuel T c with
    | none => rw [hs] at h2; cases h2
    | some r =>
      rcases Typ.Union_outcome c fuel T r hs with ⟨u, rfl⟩ | ⟨_, hf⟩
      · exact ⟨u, rfl⟩
      · rw [Context.directBound_of_allBound c hb] at hf; cases hf

/-- C17 fails on the code: the tree that `Imports.Eval` leaves for a root with the typedef
`COORD -> CARD16` and the import `mid`, whose own import stays unbound, has acyclic
aliases, yet `Size("COORD")` ends neither with a size nor with the "Could not find base
size" failure: the resource test dereferences the unbound import, at every depth. -/
theorem C17_acyclic_size_nil_deref :
    (∀ a, ¬ Relation.TransGen Sample.evaluatedAlias.aliasHop a a) ∧
    Sample.evaluatedAlias.directBound = true ∧
    Sample.evaluatedAlias.xml.allBound = false ∧
    Typ.TypeDef "COORD" Sample.evaluatedAlias = .ok ("CARD16", true) ∧
    Sample.sizes "CARD16" = some 2 ∧
    (∀ fuel, Typ.Size Sample.sizes (fuel + 1) "COORD" Sample.evaluatedAlias =
      some (.error .nilDeref)) ∧
    (∀ fuel, Typ.Union (fuel + 2) "COORD" Sample.evaluatedAlias = some (.ok none)) := by
  have hhop : ∀ a b, Sample.evaluatedAlias.aliasHop a b → a = "COORD" ∧ b = "CARD16" := by
    intro a b h
    by_cases ha : a = "COORD"
    · subst ha
      have h2 : Typ.TypeDef "COORD" Sample.evaluatedAlias = .ok ("CARD16", true) := rfl
      rw [Context.aliasHop, h2] at h
      simp only [Except.ok.injEq, Prod.mk.injEq, and_true] at h
      exact ⟨rfl, h.symm⟩
    · exfalso
      have h2 : Typ.TypeDef a Sample.evaluatedAlias = .ok ("", false) := by
        simp [Typ.TypeDef, Typ.TypeDef.scan, Typ.TypeDef.imports, Sample.evaluatedAlias,
          Sample.doc, XML.TypeDefs, XML.Imports, Import.xml, ha]
      rw [Context.aliasHop, h2] at h
      cases h
  refine ⟨?_, rfl, rfl, rfl, rfl, fun fuel => rfl, fun fuel => rfl⟩
  intro a hcyc
  obtain ⟨b, hab, hba⟩ := Relation.TransGen.head'_iff.1 hcyc
  obtain ⟨rfl, rfl⟩ := hhop a b hab
  rcases Relation.ReflTransGen.cases_head hba with h | ⟨x, hx, _⟩
  · exact absurd h (by decide)
  · exact absurd (hhop _ _ hx).1 (by decide)

/-! ## Reordering declarations -/

theorem XML.resourceNames_eq (x : XML F E) :
    x.resourceNames =
      x.Xids.map (fun xid => xid.Name) ++ x.XidUnions.map (fun xidunion => xidunion.Name) ++
        Imports.resourceNames x.Imports := by
  cases x; rfl

theorem XML.allBound_eq (x : XML F E) : x.allBound = Imports.allBound x.Imports := by
  cases x; rfl

theorem Imports.resourceNames_eq_flatMap :
    ∀ l : List (Import F E), Imports.resourceNames l =
      l.flatMap fun imp =>
        match imp.xml with
        | some y => y.resourceNames
        | none => []
  | [] => rfl
  | .mk _ none :: rest => by
    rw [Imports.resourceNames, Imports.resourceNames_eq_flatMap rest]
    rfl
  | .mk _ (some y) :: rest => by
    rw [Imports.resourceNames, Imports.resourceNames_eq_flatMap rest]
    rfl

theorem Imports.allBound_eq_all :
    ∀ l : List (Import F E), Imports.allBound l =
      l.all fun imp =>
        match imp.xml with
        | some y => y.allBound
        | none => false
  | [] => rfl
  | .mk _ none :: rest => by
    rw [Imports.allBound]
    rfl
  | .mk _ (some y) :: rest => by
    rw [Imports.allBound, Imports.allBound_eq_all rest]
    rfl

theorem all_eq_of_perm {α : Type} (p : α → Bool) {l l2 : List α} (h : l.Perm l2) :
    l.all p = l2.all p := by
  rw [Bool.eq_iff_iff, List.all_eq_true, List.all_eq_true]
  exact ⟨fun h1 a ha => h1 a (h.mem_iff.2 ha), fun h1 a ha => h1 a (h.mem_iff.1 ha)⟩

/-- What a reordering says about the lists of the two documents. -/
theorem XML.Reordered_lists (x y : XML F E) (h : XML.Reordered x y) :
    x.Enums.Perm y.Enums ∧ x.Xids.Perm y.Xids ∧ x.XidUnions.Perm y.XidUnions ∧
    x.TypeDefs.Perm y.TypeDefs ∧ x.EventCopies.Perm y.EventCopies ∧
    x.ErrorCopies.Perm y.ErrorCopies ∧ x.Structs.Perm y.Structs ∧ x.Unions.Perm y.Unions ∧
    x.Events.Perm y.Events ∧ x.Errors.Perm y.Errors ∧
    ∃ l, Imports.Reordered x.Imports l ∧ l.Perm y.Imports := by
  cases x
  simp only [XML.Reordered] at h
  obtain ⟨_, _, _, _, _, e1, e2, e3, e4, e5, e6, e7, e8, _, e9, e10, e11⟩ := h
  exact ⟨e1, e2, e3, e4, e5, e6, e7, e8, e9, e10, e11⟩

mutual
/-- Reordering permutes the resource names of the tree. -/
theorem XML.Reordered_resourceNames :
    ∀ x y : XML F E, XML.Reordered x y → x.resourceNames.Perm y.resourceNames
  | .mk h1 h2 h3 h4 h5 imports enums xids xidunions typedefs evcopies errcopies structs unions
      requests events errors, y, h => by
    simp only [XML.Reordered] at h
    obtain ⟨_, _, _, _, _, _, e2, e3, _, _, _, _, _, _, _, _, l, hl, hperm⟩ := h
    rw [XML.resourceNames_eq y]
    simp only [XML.resourceNames]
    refine List.Perm.append (List.Perm.append (e2.map _) (e3.map _)) ?_
    refine (Imports.Reordered_resourceNames_list imports l hl).trans ?_
    rw [Imports.resourceNames_eq_flatMap l, Imports.resourceNames_eq_flatMap y.Imports]
    exact List.Perm.flatMap_right _ hperm
/-- The same for lists of imports matched position by position. -/
theorem Imports.Reordered_resourceNames_list :
    ∀ l l2 : List (Import F E), Imports.Reordered l l2 →
      (Imports.resourceNames l).Perm (Imports.resourceNames l2)
  | [], l2, h => by
    simp only [Imports.Reordered] at h
    subst h
    exact List.Perm.refl _
  | .mk n none :: rest, l2, h => by
    simp only [Imports.Reordered] at h
    obtain ⟨rest2, rfl, hr⟩ := h
    simp only [Imports.resourceNames]
    exact Imports.Reordered_resourceNames_list rest rest2 hr
  | .mk n (some x) :: rest, l2, h => by
    simp only [Imports.Reordered] at h
    obtain ⟨y, rest2, rfl, hxy, hr⟩ := h
    simp only [Imports.resourceNames]
    exact List.Perm.append (XML.Reordered_resourceNames x y hxy)
      (Imports.Reordered_resourceNames_list rest rest2 hr)
end

mutual
/-- Reordering keeps bound imports bound and unbound imports unbound. -/
theorem XML.Reordered_allBound :
    ∀ x y : XML F E, XML.Reordered x y → x.allBound = y.allBound
  | .mk h1 h2 h3 h4 h5 imports enums xids xidunions typedefs evcopies errcopies structs unions
      requests events errors, y, h => by
    simp only [XML.Reordered] at h
    obtain ⟨_, _, _, _, _, _, _, _, _, _, _, _, _, _, _, _, l, hl, hperm⟩ := h
    rw [XML.allBound_eq y]
    simp only [XML.allBound]
    rw [Imports.Reordered_allBound_list imports l hl, Imports.allBound_eq_all l,
      Imports.allBound_eq_all y.Imports]
    exact all_eq_of_perm _ hperm
/-- The same for lists of imports matched position by position. -/
theorem Imports.Reordered_allBound_list :
    ∀ l l2 : List (Import F E), Imports.Reordered l l2 →
      Imports.allBound l = Imports.allBound l2
  | [], l2, h => by
    simp only [Imports.Reordered] at h
    subst h
    rfl
  | .mk n none :: rest, l2, h => by
    simp only [Imports.Reordered] at h
    obtain ⟨rest2, rfl, hr⟩ := h
    simp only [Imports.allBound]
  | .mk n (some x) :: rest, l2, h => by
    simp only [Imports.Reordered] at h
    obtain ⟨y, rest2, rfl, hxy, hr⟩ := h
    simp only [Imports.allBound]
    rw [XML.Reordered_allBound x y hxy, Imports.Reordered_allBound_list rest rest2 hr]
end

mutual
/-- A document is a reordering of itself. -/
theorem XML.Reordered_refl : ∀ x : XML F E, XML.Reordered x x
  | .mk h1 h2 h3 h4 h5 imports enums xids xidunions typedefs evcopies errcopies structs unions
      requests events errors => by
    simp only [XML.Reordered]
    exact ⟨rfl, rfl, rfl, rfl, rfl, List.Perm.refl _, List.Perm.refl _, List.Perm.refl _,
      List.Perm.refl _, List.Perm.refl _, List.Perm.refl _, List.Perm.refl _,
      List.Perm.refl _, List.Perm.refl _, List.Perm.refl _, List.Perm.refl _, imports,
      Imports.Reordered_refl_list imports, List.Perm.refl _⟩
/-- The same for lists of imports. -/
theorem Imports.Reordered_refl_list : ∀ l : List (Import F E), Imports.Reordered l l
  | [] => by simp only [Imports.Reordered]
  | .mk n none :: rest => by
    simp only [Imports.Reordered]
    exact ⟨rest, rfl, Imports.Reordered_refl_list rest⟩
  | .mk n (some x) :: rest => by
    simp only [Imports.Reordered]
    exact ⟨x, rest, rfl, XML.Reordered_refl x, Imports.Reordered_refl_list rest⟩
end

/-- Reordering permutes what the documents bound to a list of imports contribute, for
every contribution that reordering a document permutes. -/
theorem Imports.Reordered_flatMap {β : Type} (g : XML F E → List β)
    (hg : ∀ x y, XML.Reordered x y → (g x).Perm (g y)) :
    ∀ l l2 : List (Import F E), Imports.Reordered l l2 →
      (l.flatMap fun imp =>
        match imp.xml with
        | some y => g y
        | none => []).Perm
      (l2.flatMap fun imp =>
        match imp.xml with
        | some y => g y
        | none => [])
  | [], l2, h => by
    simp only [Imports.Reordered] at h
    subst h
    exact List.Perm.refl _
  | .mk n none :: rest, l2, h => by
    simp only [Imports.Reordered] at h
    obtain ⟨rest2, rfl, hr⟩ := h
    simp only [List.flatMap_cons]
    exact List.Perm.append (List.Perm.refl _) (Imports.Reordered_flatMap g hg rest rest2 hr)
  | .mk n (some x) :: rest, l2, h => by
    simp only [Imports.Reordered] at h
    obtain ⟨y, rest2, rfl, hxy, hr⟩ := h
    simp only [List.flatMap_cons]
    exact List.Perm.append (hg x y hxy) (Imports.Reordered_flatMap g hg rest rest2 hr)

theorem Context.Reordered_importedTypeDefs (c c2 : Context F E)
    (h : XML.Reordered c.xml c2.xml) : c.importedTypeDefs.Perm c2.importedTypeDefs := by
  obtain ⟨_, _, _, _, _, _, _, _, _, _, l, hl, hperm⟩ := XML.Reordered_lists c.xml c2.xml h
  exact (Imports.Reordered_flatMap (fun x => x.TypeDefs)
    (fun x y hxy => (XML.Reordered_lists x y hxy).2.2.2.1) c.xml.Imports l hl).trans
    (List.Perm.flatMap_right _ hperm)

theorem Context.Reordered_importedUnions (c c2 : Context F E)
    (h : XML.Reordered c.xml c2.xml) : c.importedUnions.Perm c2.importedUnions := by
  obtain ⟨_, _, _, _, _, _, _, _, _, _, l, hl, hperm⟩ := XML.Reordered_lists c.xml c2.xml h
  exact (Imports.Reordered_flatMap (fun x => x.Unions)
    (fun x y hxy => (XML.Reordered_lists x y hxy).2.2.2.2.2.2.2.1) c.xml.Imports l hl).trans
    (List.Perm.flatMap_right _ hperm)

/-- The first match by name is the same in two lists with the same entries when no two
entries share a name. -/
theorem find_eq_of_perm {α : Type} (key : α → Typ) (k : Typ) {l l2 : List α}
    (hp : l.Perm l2) (hn : (l.map key).Nodup) :
    (l.find? fun a => k == key a) = l2.find? fun a => k == key a := by
  cases hf : l.find? (fun a => k == key a) with
  | none =>
    symm
    rw [List.find?_eq_none]
    intro a ha
    exact List.find?_eq_none.1 hf a (hp.mem_iff.2 ha)
  | some a =>
    have ha := List.mem_of_find?_eq_some hf
    have hpa := List.find?_some hf
    cases hf2 : l2.find? (fun a => k == key a) with
    | none => exact absurd hpa (List.find?_eq_none.1 hf2 a (hp.mem_iff.1 ha))
    | some b =>
      have hb := hp.mem_iff.2 (List.mem_of_find?_eq_some hf2)
      have hpb := List.find?_some hf2
      have hka : k = key a := by simpa using hpa
      have hkb : k = key b := by simpa using hpb
      rw [List.inj_on_of_nodup_map hn ha hb (hka.symm.trans hkb)]

/-- `HasType` is membership of the name in one of the ten lists it reads. -/
theorem XML.HasType_iff_mem (T : Typ) (x : XML F E) :
    x.HasType T = true ↔
      (T ∈ x.Enums.map (fun enum => enum.Name) ∨
        T ∈ x.Xids.map (fun xid => xid.Name) ∨
        T ∈ x.XidUnions.map (fun xidunion => xidunion.Name) ∨
        T ∈ x.TypeDefs.map (fun typedef => typedef.New) ∨
        T ∈ x.EventCopies.map (fun evcopy => evcopy.Name) ∨
        T ∈ x.ErrorCopies.map (fun errcopy => errcopy.Name) ∨
        T ∈ x.Structs.map (fun strct => strct.Name) ∨
        T ∈ x.Unions.map (fun union => union.Name) ∨
        T ∈ x.Events.map (fun ev => ev.Name) ∨
        T ∈ x.Errors.map (fun err => err.Name)) := by
  have e1 := any_name_iff (fun enum : Enum E => enum.Name) T x.Enums
  have e2 := any_name_iff (fun xid : Xid => xid.Name) T x.Xids
  have e3 := any_name_iff (fun xid : Xid => xid.Name) T x.XidUnions
  have e4 := any_name_iff (fun typedef : Xgbgen.TypeDef => typedef.New) T x.TypeDefs
  have e5 := any_name_iff (fun evcopy : EventCopy => evcopy.Name) T x.EventCopies
  have e6 := any_name_iff (fun errcopy : ErrorCopy => errcopy.Name) T x.ErrorCopies
  have e7 := any_name_iff (fun strct : Struct F => strct.Name) T x.Structs
  have e8 := any_name_iff (fun union : Xgbgen.Union F => union.Name) T x.Unions
  have e9 := any_name_iff (fun ev : Event F => ev.Name) T x.Events
  have e10 := any_name_iff (fun err : Error F => err.Name) T x.Errors
  have hite : ∀ (p : Prop) [Decidable p] (r : Bool),
      (if p then true else r) = true ↔ (p ∨ r = true) := by
    intro p _ r
    by_cases hp : p <;> simp [hp]
  simp only [XML.HasType, hite, e1, e2, e3, e4, e5, e6, e7, e8, e9, e10,
    Bool.false_eq_true, or_false]

theorem XML.IsResource_reordered (T : Typ) (x y : XML F E) (h : XML.Reordered x y)
    (hb : x.allBound = true) : y.IsResource T = x.IsResource T := by
  have hb2 : y.allBound = true := by rw [← XML.Reordered_allBound x y h]; exact hb
  rw [XML.IsResource_eq_mem T x hb, XML.IsResource_eq_mem T y hb2]
  congr 1
  exact decide_eq_decide.2 (XML.Reordered_resourceNames x y h).mem_iff.symm

theorem XML.HasType_reordered (T : Typ) (x y : XML F E) (h : XML.Reordered x y) :
    y.HasType T = x.HasType T := by
  obtain ⟨e1, e2, e3, e4, e5, e6, e7, e8, e9, e10, _⟩ := XML.Reordered_lists x y h
  rw [Bool.eq_iff_iff, XML.HasType_iff_mem, XML.HasType_iff_mem,
    (e1.map _).mem_iff, (e2.map _).mem_iff, (e3.map _).mem_iff, (e4.map _).mem_iff,
    (e5.map _).mem_iff, (e6.map _).mem_iff, (e7.map _).mem_iff, (e8.map _).mem_iff,
    (e9.map _).mem_iff, (e10.map _).mem_iff]

theorem Typ.TypeDef_reordered (T : Typ) (c c2 : Context F E)
    (h : XML.Reordered c.xml c2.xml) (hb : c.xml.allBound = true) (hu : c.uniqueNames) :
    Typ.TypeDef T c2 = Typ.TypeDef T c := by
  have hb2 : c2.xml.allBound = true := by
    rw [← XML.Reordered_allBound c.xml c2.xml h]; exact hb
  rw [Typ.TypeDef_eq_find T c (Context.directBound_of_allBound c hb),
    Typ.TypeDef_eq_find T c2 (Context.directBound_of_allBound c2 hb2)]
  have hloc := find_eq_of_perm (fun typedef : Xgbgen.TypeDef => typedef.New) T
    (XML.Reordered_lists c.xml c2.xml h).2.2.2.1 hu.1
  have himp := find_eq_of_perm (fun typedef : Xgbgen.TypeDef => typedef.New) T
    (Context.Reordered_importedTypeDefs c c2 h) hu.2.1
  have hvis : ∀ d : Context F E, d.visibleTypeDefs = d.xml.TypeDefs ++ d.importedTypeDefs :=
    fun _ => rfl
  rw [hvis c, hvis c2, List.find?_append, List.find?_append, hloc, himp]

theorem Typ.Union_reordered (c c2 : Context F E)
    (h : XML.Reordered c.xml c2.xml) (hb : c.xml.allBound = true) (hu : c.uniqueNames) :
    ∀ fuel T, Typ.Union fuel T c2 = Typ.Union fuel T c := by
  intro fuel
  induction fuel with
  | zero => intro T; rfl
  | succ fuel ih =>
    intro T
    have hTD := Typ.TypeDef_reordered T c c2 h hb hu
    rcases Typ.TypeDef_cases T c with hT | ⟨old, hT⟩ | ⟨hT, _⟩
    · simp only [Typ.Union, hTD, hT]
    · rw [Typ.Union_of_typedef T old c hT, Typ.Union_of_typedef T old c2 (hTD.trans hT)]
      exact ih old
    · rw [Typ.Union_of_no_typedef T c hT, Typ.Union_of_no_typedef T c2 (hTD.trans hT)]
      have hloc := find_eq_of_perm (fun union : Xgbgen.Union F => union.Name) T
        (XML.Reordered_lists c.xml c2.xml h).2.2.2.2.2.2.2.1 hu.2.2.1
      have himp := find_eq_of_perm (fun union : Xgbgen.Union F => union.Name) T
        (Context.Reordered_importedUnions c c2 h) hu.2.2.2
      have hvis : ∀ d : Context F E, d.visibleUnions = d.xml.Unions ++ d.importedUnions :=
        fun _ => rfl
      rw [hvis c, hvis c2, List.find?_append, List.find?_append, hloc, himp]

theorem Typ.Size_reordered (BaseTypeSizes : String → Option Nat) (c c2 : Context F E)
    (h : XML.Reordered c.xml c2.xml) (hb : c.xml.allBound = true) (hu : c.uniqueNames) :
    ∀ fuel T, Typ.Size BaseTypeSizes fuel T c2 = Typ.Size BaseTypeSizes fuel T c := by
  intro fuel
  induction fuel with
  | zero => intro T; rfl
  | succ fuel ih =>
    intro T
    have hTD := Typ.TypeDef_reordered T c c2 h hb hu
    have hR := XML.IsResource_reordered T c.xml c2.xml h hb
    rw [Typ.Size_step, Typ.Size_step, hR, hTD]
    cases BaseTypeSizes T with
    | some size => rfl
    | none =>
      cases c.xml.IsResource T with
      | error e => rfl
      | ok b =>
        cases b with
        | true => rfl
        | false =>
          rcases Typ.TypeDef_cases T c with hT | ⟨old, hT⟩ | ⟨hT, _⟩
          · simp only [hT]
          · simp only [hT]
            exact ih old
          · simp only [hT]

/-- C13, as the code behaves: on a tree whose imports are all bound, reordering the
entries of declaration lists, in the document, in its list of imports and in the imported
documents, leaves `IsResource` and `HasType` unchanged for every name; it leaves
`TypeDef`, `Union` and `Size` unchanged as well when, in addition to the uniqueness of
typedef new names and union names within the document, no two typedefs declared by
direct imports share a new name and no two unions declared by them share a name. -/
theorem C13_reordering (c c2 : Context F E) (hre : XML.Reordered c.xml c2.xml)
    (hb : c.xml.allBound = true) :
    (∀ T, c2.xml.IsResource T = c.xml.IsResource T) ∧
    (∀ T, c2.xml.HasType T = c.xml.HasType T) ∧
    (c.uniqueNames →
      (∀ T, Typ.TypeDef T c2 = Typ.TypeDef T c) ∧
      (∀ fuel T, Typ.Union fuel T c2 = Typ.Union fuel T c) ∧
      (∀ BaseTypeSizes fuel T,
        Typ.Size BaseTypeSizes fuel T c2 = Typ.Size BaseTypeSizes fuel T c)) :=
  ⟨fun T => XML.IsResource_reordered T c.xml c2.xml hre hb,
    fun T => XML.HasType_reordered T c.xml c2.xml hre,
    fun hu => ⟨fun T => Typ.TypeDef_reordered T c c2 hre hb hu,
      Typ.Union_reordered c c2 hre hb hu,
      fun BaseTypeSizes => Typ.Size_reordered BaseTypeSizes c c2 hre hb hu⟩⟩

theorem Sample.ordered_reordered : XML.Reordered Sample.ordered.xml Sample.reordered.xml := by
  simp only [Sample.ordered, Sample.reordered, Sample.doc, XML.Reordered]
  exact ⟨rfl, rfl, rfl, rfl, rfl, List.Perm.refl _, List.Perm.swap _ _ _, List.Perm.refl _,
    List.Perm.swap _ _ _, List.Perm.refl _, List.Perm.refl _, List.Perm.refl _,
    List.Perm.swap _ _ _, List.Perm.refl _, List.Perm.refl _, List.Perm.refl _,
    _, Imports.Reordered_refl_list _, List.Perm.refl _⟩

theorem Sample.oneTwo_reordered : XML.Reordered Sample.oneTwo.xml Sample.twoOne.xml := by
  simp only [Sample.oneTwo, Sample.twoOne, Sample.doc, XML.Reordered]
  exact ⟨rfl, rfl, rfl, rfl, rfl, List.Perm.refl _, List.Perm.refl _, List.Perm.refl _,
    List.Perm.refl _, List.Perm.refl _, List.Perm.refl _, List.Perm.refl _,
    List.Perm.refl _, List.Perm.refl _, List.Perm.refl _, List.Perm.refl _,
    _, Imports.Reordered_refl_list _, List.Perm.swap _ _ _⟩

/-- C13 on a sample whose resources, typedefs and unions are exchanged: the premises hold,
and the alias `WIN` of the imported resource `WINDOW` has the width of `Id` in both. -/
theorem C13_reordering_witness :
    XML.Reordered Sample.ordered.xml Sample.reordered.xml ∧
    Sample.ordered.xml.allBound = true ∧ Sample.ordered.uniqueNames ∧
    Sample.reordered.xml.TypeDefs = [⟨"WINDOW", "WIN"⟩, ⟨"CARD8", "BYTE1"⟩] ∧
    Sample.ordered.xml.TypeDefs = [⟨"CARD8", "BYTE1"⟩, ⟨"WINDOW", "WIN"⟩] ∧
    Typ.Size Sample.sizes 2 "WIN" Sample.reordered = some (.ok 4) ∧
    Typ.Size Sample.sizes 2 "WIN" Sample.reordered = Typ.Size Sample.sizes 2 "WIN" Sample.ordered :=
  have hu : Sample.ordered.uniqueNames := ⟨by decide, by decide, by decide, by decide⟩
  ⟨Sample.ordered_reordered, rfl, hu, rfl, rfl, rfl,
    ((C13_reordering Sample.ordered Sample.reordered Sample.ordered_reordered rfl).2.2 hu).2.2
      Sample.sizes 2 "WIN"⟩

/-- C13 as stated fails: the two samples differ only in the order of their two imports,
every document of the tree declares one typedef and one union, so no two declarations of
a kind share a name within a document, and all imports are bound; yet `TypeDef("T")`,
`Size("T")` and `Union("U")` depend on which import comes first. -/
theorem C13_import_order_counterexample :
    XML.Reordered Sample.oneTwo.xml Sample.twoOne.xml ∧
    Sample.oneTwo.xml.allBound = true ∧ Sample.twoOne.xml.allBound = true ∧
    Sample.oneTwo.xml.TypeDefs = [] ∧ Sample.oneTwo.xml.Unions = [] ∧
    Sample.oneTwo.xml.Imports.map
        (fun imp => imp.xml.map fun y => y.TypeDefs.map fun typedef => typedef.New) =
      [some ["T"], some ["T"]] ∧
    Sample.oneTwo.xml.Imports.map
        (fun imp => imp.xml.map fun y => y.Unions.map fun union => union.Name) =
      [some ["U"], some ["U"]] ∧
    Typ.TypeDef "T" Sample.oneTwo = .ok ("CARD8", true) ∧
    Typ.TypeDef "T" Sample.twoOne = .ok ("CARD16", true) ∧
    Typ.Size Sample.sizes 2 "T" Sample.oneTwo = some (.ok 1) ∧
    Typ.Size Sample.sizes 2 "T" Sample.twoOne = some (.ok 2) ∧
    Typ.Union 1 "U" Sample.oneTwo = some (.ok (some ⟨"U", 1⟩)) ∧
    Typ.Union 1 "U" Sample.twoOne = some (.ok (some ⟨"U", 2⟩)) ∧
    Typ.Size Sample.sizes 2 "T" Sample.twoOne ≠ Typ.Size Sample.sizes 2 "T" Sample.oneTwo :=
  ⟨Sample.oneTwo_reordered, rfl, rfl, rfl, rfl, rfl, rfl, rfl, rfl, rfl, rfl, rfl, rfl,
    fun h => by
      have h1 : Typ.Size Sample.sizes 2 "T" Sample.twoOne = some (.ok 2) := rfl
      have h2 : Typ.Size Sample.sizes 2 "T" Sample.oneTwo = some (.ok 1) := rfl
      rw [h1, h2] at h
      cases h⟩

end Xgbgen
